import Mathlib

/-!
Verification development for the PSID mapping / panel-extraction subsystem.

The definitions below are shallow embeddings of the Python sources
src/make_canonical_grid.py and src/psid_tool.py:

- cell values of a data frame are modelled by the inductive type Val
  (missing value, exact rational number, or string); pandas floating
  point arithmetic is modelled by exact rationals;
- pandas Series / DataFrame columns are plain lists of Val;
- regular-expression substitution and search are modelled by
  specialised scanners that reproduce the concrete patterns used by the
  source (word boundaries, character classes, literal alternatives);
- Python exceptions raised in fail-fast mode are modelled with Except;
  log messages are returned as explicit (severity, text) pairs;
- unicode NFC normalisation inside normalize_header is modelled as the
  identity on the already-normalised strings of the model, so only the
  strip component remains; Python string functions (strip, lower,
  split) are modelled on ASCII character lists.
-/

namespace PSID

/-- Whitespace test matching Python str.strip / str.split / regex \s
for the ASCII range. -/
def isWs (c : Char) : Bool :=
  c = ' ' || c = '\t' || c = '\n' || c = '\r' || c = '\x0b' || c = '\x0c'

/-- Word character test matching regex \w for the ASCII range. -/
def isWordChar (c : Char) : Bool :=
  c.isAlpha || c.isDigit || c = '_'

/-- Left trim on character lists (Python lstrip). -/
def trimLeft (s : List Char) : List Char :=
  s.dropWhile isWs

/-- Two sided trim on character lists (Python str.strip with no
argument). -/
def trimWs (s : List Char) : List Char :=
  ((s.dropWhile isWs).reverse.dropWhile isWs).reverse

/-- Lower casing a character list (Python str.lower on ASCII data). -/
def lowerList (s : List Char) : List Char :=
  s.map Char.toLower

/-- Cell value of a modelled pandas frame: missing, exact number, or
string. -/
inductive Val where
  | na : Val
  | num : Rat → Val
  | str : String → Val
deriving DecidableEq, Repr

/-- A column of a modelled frame. -/
abbrev Column := List Val

/-- Typed payload of a transform operation, mirroring the values built
by parse_transform_string in src/psid_tool.py (na_codes literal list,
clip bounds where none means unbounded, winsor proportion). -/
inductive TParam where
  | codes (vs : List Val)
  | clipB (lo hi : Option Rat)
  | winsorP (p : Rat)
deriving DecidableEq, Repr

/-- TransformOperation from src/psid_tool.py. -/
structure TransformOperation where
  name : String
  params : Option TParam := none
deriving DecidableEq, Repr

/-- TransformSpec from src/psid_tool.py. -/
structure TransformSpec where
  operations : List TransformOperation := []
  duplicate_strategy : Option String := none
deriving DecidableEq, Repr

/-- Identity key used by TransformSpec.merge: the Python code keys
operations by (name, repr(params)); repr is injective on the modelled
payloads, so the pair (name, params) is used directly. -/
def opKey (op : TransformOperation) : String × Option TParam :=
  (op.name, op.params)

/-- Python truthiness of an optional string (None and the empty string
are falsy). -/
def pyTruthy : Option String → Bool
  | none => false
  | some s => s ≠ ""

/-- Union of operation lists as performed by TransformSpec.merge in
src/psid_tool.py: fold over the second list, appending an operation
only when its key is not yet present. -/
def unionOps (a b : List TransformOperation) : List TransformOperation :=
  b.foldl (fun acc op => if acc.any (fun o => opKey o = opKey op) then acc else acc ++ [op]) a

/-- TransformSpec.merge from src/psid_tool.py (lines 66-80).  The
mutation of self is modelled by returning the updated record.  When
both specs carry a non-empty duplicate strategy and they differ, the
Python code returns early, before the operation union. -/
def TransformSpec.merge (self other : TransformSpec) : TransformSpec :=
  if pyTruthy other.duplicate_strategy then
    if pyTruthy self.duplicate_strategy ∧ self.duplicate_strategy ≠ other.duplicate_strategy then
      self
    else
      { operations := unionOps self.operations other.operations,
        duplicate_strategy :=
          if ¬ pyTruthy self.duplicate_strategy then other.duplicate_strategy
          else self.duplicate_strategy }
  else
    { self with operations := unionOps self.operations other.operations }

/-- Modelled from the spec wording for claim C2: the operations of the
second spec whose (name, params) key was not already seen, in
first-seen order (later duplicates inside the second list are dropped
as well). -/
def newOps (a : List TransformOperation) : List TransformOperation → List TransformOperation
  | [] => []
  | op :: rest =>
      if a.any (fun o => opKey o = opKey op) then newOps a rest
      else op :: newOps (a ++ [op]) rest

/-- Python int() applied to a string: surrounding whitespace is
stripped, an optional sign precedes a non-empty digit run.  (Underscore
digit grouping and non-ASCII digits are outside the model.) -/
def digitsToNat : List Char → Option Nat
  | [] => none
  | ds =>
      if ds.all Char.isDigit then
        some (ds.foldl (fun acc c => acc * 10 + (c.toNat - '0'.toNat)) 0)
      else none

def pyIntParse (s : String) : Option Int :=
  match trimWs s.toList with
  | '+' :: ds => (digitsToNat ds).map (fun n => (n : Int))
  | '-' :: ds => (digitsToNat ds).map (fun n => -(n : Int))
  | ds => (digitsToNat ds).map (fun n => (n : Int))

/-- YEAR_PATTERN.match on the decimal rendering of an integer: a
prefix of the form (19|20) followed by two digits. -/
def matchYearPat (s : String) : Bool :=
  match s.toList with
  | c1 :: c2 :: c3 :: c4 :: _ =>
      ((c1 = '1' ∧ c2 = '9') ∨ (c1 = '2' ∧ c2 = '0')) ∧ c3.isDigit ∧ c4.isDigit
  | _ => false

/-- One row of the year-validation loop of read_mapping
(src/psid_tool.py lines 215-231): the parsed year that is kept, or none
together with the number of invalid-year increments it causes. -/
def yearCell (raw : String) : Option Int × Nat :=
  match pyIntParse raw with
  | none => (none, 1)
  | some z =>
      if z ≠ 0 ∧ matchYearPat (toString z) then (some z, 0) else (none, 1)

/-- The year-validation and row-dropping step of read_mapping
(src/psid_tool.py lines 215-239) on mapping rows abstracted to their
raw year string plus an opaque payload.  In fail-fast mode any invalid
year raises; otherwise rows whose year cell became missing are dropped
by dropna. -/
def readMappingYears {α : Type} (rows : List (String × α)) (failFast : Bool) :
    Except String (List (Int × α)) :=
  let cells := rows.map (fun r => (yearCell r.1, r.2))
  let invalid : Nat := (cells.map (fun c => c.1.2)).sum
  if invalid ≠ 0 then
    if failFast then Except.error "Dropped rows with invalid year values"
    else Except.ok (cells.filterMap (fun c => c.1.1.map (fun z => (z, c.2))))
  else
    Except.ok (cells.filterMap (fun c => c.1.1.map (fun z => (z, c.2))))

/-- Digit run to a natural number (helper shared by the numeric
parsers). -/
def natOfDigits (ds : List Char) : Nat :=
  ds.foldl (fun acc c => acc * 10 + (c.toNat - '0'.toNat)) 0

/-- Unsigned decimal literal accepted by pandas to_numeric: a digit
run, optionally with a decimal point (exponents are outside the
model). -/
def parseUnsignedRat (ds : List Char) : Option Rat :=
  let intPart := ds.takeWhile (fun c => c ≠ '.')
  match ds.dropWhile (fun c => c ≠ '.') with
  | [] =>
      if ds ≠ [] ∧ ds.all Char.isDigit then some ((natOfDigits ds : Nat) : Rat) else none
  | _ :: frac =>
      if intPart.all Char.isDigit ∧ frac.all Char.isDigit ∧ (intPart ≠ [] ∨ frac ≠ []) then
        some (((natOfDigits intPart : Nat) : Rat) +
          ((natOfDigits frac : Nat) : Rat) / ((10 : Rat) ^ frac.length))
      else none

/-- Numeric parsing of a string cell as done by pandas to_numeric with
errors equal to coerce. -/
def pyRatParse (s : String) : Option Rat :=
  match trimWs s.toList with
  | '+' :: ds => parseUnsignedRat ds
  | '-' :: ds => (parseUnsignedRat ds).map Neg.neg
  | ds => parseUnsignedRat ds

/-- pandas to_numeric with errors equal to coerce on one cell. -/
def toNumeric : Val → Option Rat
  | .na => none
  | .num q => some q
  | .str s => pyRatParse s

/-- Decimal rendering used when a numeric cell is viewed as a string
(astype string); integers render without a fractional part. -/
def renderNum (q : Rat) : String :=
  if q.den = 1 then toString q.num else toString q.num ++ "/" ++ toString q.den

/-- astype string on one cell: missing stays missing. -/
def valToString : Val → Val
  | .na => .na
  | .num q => .str (renderNum q)
  | .str s => .str s

/-- String rendering of a na_codes literal (Python str applied to the
parsed payload element). -/
def pyStrOfVal : Val → String
  | .na => "nan"
  | .num q => renderNum q
  | .str s => s

/-- Equality test used by pandas == between a cell and a literal:
numbers compare numerically, strings compare as strings, missing never
compares equal. -/
def valEq : Val → Val → Bool
  | .num a, .num b => a = b
  | .str a, .str b => a = b
  | _, _ => false

/-- ExtractionOptions from src/psid_tool.py. -/
structure ExtractionOptions where
  apply_transforms : Bool
  coerce_types : Bool
  sample_rows : Option Nat := none
  fail_fast : Bool
  quiet : Bool := false
deriving DecidableEq, Repr

/-- CanonicalMeta from src/psid_tool.py. -/
structure CanonicalMeta where
  canonical : String
  dtype : Option String := none
  transform : TransformSpec
  label : Option String := none
  category : Option String := none
  file_type : Option String := none
deriving DecidableEq, Repr

/-- Duplicate strategy of an optional metadata record, as read by
resolve_duplicates. -/
def stratOf : Option CanonicalMeta → Option String
  | some m => m.transform.duplicate_strategy
  | none => none

/-- Row i of a column block (cells past the end of a column read as
missing, matching the outer-join index alignment of pandas concat). -/
def rowAt (block : List Column) (i : Nat) : List Val :=
  block.map (fun col => col.getD i Val.na)

/-- Row-wise first non-missing value, the effect of ffill then bfill
along columns followed by taking the lead column. -/
def firstNonNA (row : List Val) : Val :=
  (row.find? (fun v => v ≠ Val.na)).getD Val.na

/-- Row-wise numeric sum with min_count one: all cells missing gives
missing, never zero. -/
def sumNonNA (row : List Val) : Val :=
  let vals := row.filterMap toNumeric
  if vals = [] then Val.na else Val.num (vals.foldl (· + ·) 0)

/-- Row-wise numeric maximum ignoring missing values. -/
def maxNonNA (row : List Val) : Val :=
  match row.filterMap toNumeric with
  | [] => Val.na
  | v :: vs => Val.num (vs.foldl max v)

/-- Result of resolve_duplicates: the renamed series, the resolved and
unresolved duplicate counts, and the emitted log messages. -/
structure ResolveOut where
  name : String
  series : Column
  resolved : Nat
  unresolved : Nat
  messages : List (String × String)
deriving DecidableEq, Repr

/-- resolve_duplicates from src/psid_tool.py (lines 674-720).  The
block is the list of source columns for one canonical; nrows is the
length of the combined frame index. -/
def resolve_duplicates (canonical : String) (block : List Column) (nrows : Nat)
    (meta : Option CanonicalMeta) (options : ExtractionOptions) :
    Except String ResolveOut :=
  if block.length = 0 then
    Except.ok ⟨canonical, List.replicate nrows Val.na, 0, 0, []⟩
  else if block.length = 1 then
    Except.ok ⟨canonical, block.headD [], 0, 0, []⟩
  else
    let strategy := stratOf meta
    if strategy = some "first_non_na" then
      Except.ok ⟨canonical, (List.range nrows).map (fun i => firstNonNA (rowAt block i)),
        block.length - 1, 0, []⟩
    else if strategy = some "sum_non_na" then
      Except.ok ⟨canonical, (List.range nrows).map (fun i => sumNonNA (rowAt block i)),
        block.length - 1, 0, []⟩
    else if strategy = some "max_non_na" then
      Except.ok ⟨canonical, (List.range nrows).map (fun i => maxNonNA (rowAt block i)),
        block.length - 1, 0, []⟩
    else if options.apply_transforms then
      if options.fail_fast then
        Except.error ("Canonical " ++ canonical ++
          " has multiple source columns but no duplicate strategy defined")
      else
        Except.ok ⟨canonical, block.headD [], 0, block.length - 1,
          [("ERROR", "Canonical " ++ canonical ++
            " has multiple source columns but no duplicate strategy defined")]⟩
    else
      Except.ok ⟨canonical, block.headD [], 0, block.length - 1,
        [("WARNING", "Canonical " ++ canonical ++
          " duplicates encountered; keeping first column because transforms are off")]⟩

/-- pandas Series.quantile with linear interpolation on the non-missing
values, computed exactly on rationals. -/
def quantileLinear (p : Rat) (xs : List Rat) : Option Rat :=
  let s := List.insertionSort (· ≤ ·) xs
  match s.length with
  | 0 => none
  | Nat.succ m =>
      let h : Rat := p * (m : Rat)
      let lo : Nat := h.floor.toNat
      let hi : Nat := min (lo + 1) m
      let xl := s.getD lo 0
      let xh := s.getD hi 0
      some (xl + (h - (lo : Rat)) * (xh - xl))

/-- Numeric clamp against optional bounds (pandas clip; a missing bound
leaves that side unbounded). -/
def clipCell (lo hi : Option Rat) (v : Option Rat) : Val :=
  match v with
  | none => Val.na
  | some q =>
      let q1 := match lo with | none => q | some l => max l q
      let q2 := match hi with | none => q1 | some h => min h q1
      Val.num q2

/-- String strip applied to one string-typed cell. -/
def stripCell : Val → Val
  | .str s => .str (String.mk (trimWs s.toList))
  | v => v

/-- String lower on one string-typed cell. -/
def lowerCell : Val → Val
  | .str s => .str (String.mk (lowerList s.toList))
  | v => v

/-- String upper on one string-typed cell. -/
def upperCell : Val → Val
  | .str s => .str (String.mk (s.toList.map Char.toUpper))
  | v => v

/-- Masking pass of the na_codes operation for one literal: first the
native comparison, then the string-form comparison. -/
def maskCode (code : Val) (col : Column) : Column :=
  let first := col.map (fun v => if valEq v code then Val.na else v)
  first.map (fun v =>
    if valToString v = Val.str (pyStrOfVal code) then Val.na else v)

/-- One transform operation applied to a column, mirroring the
operation dispatch of apply_transforms in src/psid_tool.py (lines
753-807).  An unrecognised payload shape for clip or winsor cannot be
produced by the parser and is modelled as a no-op. -/
def applyOp (canonical : String) (col : Column) (op : TransformOperation) :
    Column × List (String × String) :=
  if op.name = "na_codes" then
    let codes := match op.params with | some (.codes vs) => vs | _ => []
    (codes.foldl (fun c code => maskCode code c) col, [])
  else if op.name = "strip" then
    (col.map (fun v => stripCell (valToString v)), [])
  else if op.name = "lower" then
    (col.map (fun v => lowerCell (valToString v)), [])
  else if op.name = "upper" then
    (col.map (fun v => upperCell (valToString v)), [])
  else if op.name = "na_blank_to_nan" then
    let first := col.map (fun v => if valEq v (Val.str "") then Val.na else v)
    (first.map (fun v => if valToString v = Val.str "" then Val.na else v), [])
  else if op.name = "clip" then
    match op.params with
    | some (.clipB lo hi) => (col.map (fun v => clipCell lo hi (toNumeric v)), [])
    | _ => (col, [])
  else if op.name = "winsor" then
    match op.params with
    | some (.winsorP p) =>
        let numeric := col.map toNumeric
        let lower := quantileLinear p (numeric.reduceOption)
        let upper := quantileLinear (1 - p) (numeric.reduceOption)
        (numeric.map (fun v => clipCell lower upper v), [])
    | _ => (col, [])
  else if op.name = "to_int" then
    (col.map (fun v => match toNumeric v with
      | none => Val.na
      | some q => Val.num q), [])
  else if op.name = "to_float" then
    (col.map (fun v => match toNumeric v with
      | none => Val.na
      | some q => Val.num q), [])
  else
    (col, [("WARNING", "Skipping unsupported operation '" ++ op.name ++ "' for " ++ canonical)])

/-- apply_transforms from src/psid_tool.py (lines 753-807): ordered
application of the parsed operations when transforms are enabled. -/
def apply_transforms (series : Column) (meta : CanonicalMeta)
    (options : ExtractionOptions) : Column × List (String × String) :=
  if ¬ options.apply_transforms ∨ meta.transform.operations = [] then (series, [])
  else
    meta.transform.operations.foldl
      (fun acc op =>
        let r := applyOp meta.canonical acc.1 op
        (r.1, acc.2 ++ r.2))
      (series, [])

/-- Allowed dtype names from src/psid_tool.py. -/
def ALLOWED_DTYPES : List String := ["int64", "float64", "string", "category"]

/-- apply_dtype from src/psid_tool.py (lines 723-750).  An Int64 cast
of non-integral numeric data raises inside pandas; the surrounding
try/except converts that to a warning unless fail-fast is set, in
which case it propagates. -/
def apply_dtype (series : Column) (meta : CanonicalMeta)
    (options : ExtractionOptions) : Except String (Column × List (String × String)) :=
  if ¬ options.coerce_types ∨ ¬ pyTruthy meta.dtype then Except.ok (series, [])
  else
    let dtypeKey := String.mk (lowerList (meta.dtype.getD "").toList)
    if ¬ ALLOWED_DTYPES.contains dtypeKey then
      Except.ok (series, [("WARNING", "Skipping unsupported dtype '" ++
        meta.dtype.getD "" ++ "' for " ++ meta.canonical)])
    else if dtypeKey = "int64" then
      let nums := series.map toNumeric
      if (nums.reduceOption).all (fun q => q.den = 1) then
        Except.ok (nums.map (fun v => match v with
          | none => Val.na
          | some q => Val.num q), [])
      else if options.fail_fast then
        Except.error ("Failed to coerce " ++ meta.canonical ++ " to int64")
      else
        Except.ok (series, [("WARNING", "Failed to coerce " ++ meta.canonical ++ " to int64")])
    else if dtypeKey = "float64" then
      Except.ok (series.map (fun v => match toNumeric v with
        | none => Val.na
        | some q => Val.num q), [])
    else if dtypeKey = "string" then
      Except.ok (series.map valToString, [])
    else
      Except.ok (series, [])

/-- Association-list lookup used for the Python dict accesses of the
model. -/
def alookup {β : Type} (k : String) (l : List (String × β)) : Option β :=
  (l.find? (fun p => p.1 = k)).map (fun p => p.2)

/-- normalize_header from src/psid_tool.py: unicode NFC (identity in
the model) followed by strip. -/
def normHdr (s : String) : String :=
  String.mk (trimWs s.toList)

/-- Python sorted on strings (lexicographic code-point order). -/
def sortStrings (l : List String) : List String :=
  List.insertionSort (fun a b : String => a ≤ b) l

/-- A source CSV file: its raw header names paired with the data lines
below the header (a label row, when present, is the first data line). -/
structure SrcFile where
  name : String
  cols : List (String × Column)
deriving DecidableEq, Repr

/-- YearTask from src/psid_tool.py; Python dicts are modelled as
association lists. -/
structure YearTask where
  year : Int
  files : List SrcFile
  var_codes_by_canonical : List (String × List String)
  var_code_to_canonical : List (String × String)
  all_canonicals : List String
  canonical_meta : List (String × CanonicalMeta)
  options : ExtractionOptions
deriving DecidableEq, Repr

/-- One audit row of the extraction log. -/
structure AuditRow where
  year : Int
  file : String
  present_cols : Nat
  missing_required : Nat
  duplicate_canonicals_resolved : Nat
  duplicate_canonicals_unresolved : Nat
deriving DecidableEq, Repr

/-- YearResult from src/psid_tool.py. -/
structure YearResult where
  year : Int
  frame : Option (List (String × Column))
  messages : List (String × String)
  audit_rows : List AuditRow
deriving DecidableEq, Repr

/-- Truncation of a column by the optional sample_rows option. -/
def takeOpt (n? : Option Nat) (c : Column) : Column :=
  match n? with
  | none => c
  | some n => c.take n

/-- Column padding performed by the outer-join index alignment of
pandas concat along columns. -/
def padTo (n : Nat) (c : Column) : Column :=
  c ++ List.replicate (n - c.length) Val.na

/-- A frame with no rows (pandas frame.empty). -/
def frameEmpty (cols : List (String × Column)) : Bool :=
  cols.all (fun p => p.2.isEmpty)

/-- pandas read_csv with usecols: the requested raw columns in file
order, optionally skipping the label row and truncating to the sample
size. -/
def readCols (f : SrcFile) (available : List String) (skipLabelRow : Bool)
    (sample : Option Nat) : List (String × Column) :=
  (f.cols.filter (fun p => available.contains p.1)).map
    (fun p => (p.1, takeOpt sample (if skipLabelRow then p.2.drop 1 else p.2)))

/-- State threaded through the per-file loop of process_year. -/
structure FileState where
  combined_frames : List (List (String × Column))
  assigned : List (String × String)
  messages : List (String × String)
  audit_rows : List AuditRow

/-- Body of the per-file loop of process_year (src/psid_tool.py lines
822-898).  Reading a file whose raw header names differ from their
normalised form raises inside read_csv (usecols mismatch); fail-fast
re-raises, otherwise the file is skipped with a warning while its
codes stay claimed. -/
def processFile (task : YearTask) (st : FileState) (f : SrcFile) :
    Except String FileState :=
  let headerCols := f.cols.map (fun p => normHdr p.1)
  let assignedCodes := st.assigned.map (fun p => p.1)
  let available := sortStrings
    ((((task.var_code_to_canonical.map (fun p => p.1)).dedup).filter
      (fun code => ¬ assignedCodes.contains code)).filter
      (fun code => headerCols.contains code))
  let duplicated := sortStrings
    ((headerCols.dedup).filter (fun code => assignedCodes.contains code))
  let msgs1 := if duplicated ≠ [] then
      [("WARNING", "Year " ++ toString task.year ++ " file " ++ f.name ++
        " contains already assigned columns: " ++ String.intercalate ", " duplicated)]
    else []
  if available = [] then
    Except.ok { st with
      messages := st.messages ++ msgs1,
      audit_rows := st.audit_rows ++
        [⟨task.year, f.name, 0, (task.all_canonicals.dedup).length, 0, 0⟩] }
  else
    let assigned' := st.assigned ++ available.map (fun code => (code, f.name))
    if available.all (fun code => (f.cols.map (fun p => p.1)).contains code) then
      let cols0 := readCols f available true task.options.sample_rows
      let cols1 := if frameEmpty cols0 then readCols f available false task.options.sample_rows
        else cols0
      let frame := cols1.map (fun p => (normHdr p.1, p.2))
      let presentCanon := (assigned'.map (fun p => p.1)).filterMap
        (fun code => alookup code task.var_code_to_canonical)
      Except.ok { st with
        combined_frames := st.combined_frames ++ [frame],
        assigned := assigned',
        messages := st.messages ++ msgs1,
        audit_rows := st.audit_rows ++ [⟨task.year, f.name, available.length,
          (task.all_canonicals.dedup).length - presentCanon.dedup.length, 0, 0⟩] }
    else if task.options.fail_fast then
      Except.error ("Failed to read " ++ f.name)
    else
      Except.ok { st with
        assigned := assigned',
        messages := st.messages ++ msgs1 ++ [("WARNING", "Failed to read " ++ f.name)] }

/-- apply_dtype lifted to the optional metadata record held by a task;
the missing case cannot be reached from run_extract (the metadata map
covers every canonical) and is modelled as the identity. -/
def applyDtypeOpt (series : Column) (meta? : Option CanonicalMeta)
    (options : ExtractionOptions) : Except String (Column × List (String × String)) :=
  match meta? with
  | none => Except.ok (series, [])
  | some m => apply_dtype series m options

/-- apply_transforms lifted to the optional metadata record (see
applyDtypeOpt). -/
def applyTransformsOpt (series : Column) (meta? : Option CanonicalMeta)
    (options : ExtractionOptions) : Column × List (String × String) :=
  match meta? with
  | none => (series, [])
  | some m => apply_transforms series m options

/-- State threaded through the per-canonical loop of process_year. -/
structure CanonState where
  cols : List (String × Column)
  messages : List (String × String)
  resolvedTotal : Nat
  unresolvedTotal : Nat

/-- Body of the per-canonical loop of process_year (src/psid_tool.py
lines 909-926). -/
def processCanonical (task : YearTask) (combined : List (String × Column)) (nrows : Nat)
    (st : CanonState) (canonical : String) : Except String CanonState := do
  let codes := (alookup canonical task.var_codes_by_canonical).getD []
  let availableCodes := codes.filter (fun code => (combined.map (fun p => p.1)).contains code)
  let meta? := alookup canonical task.canonical_meta
  if availableCodes = [] then
    let series0 : Column := List.replicate nrows Val.na
    let r1 ← applyDtypeOpt series0 meta? task.options
    let r2 := applyTransformsOpt r1.1 meta? task.options
    return { st with
      cols := st.cols ++ [(canonical, r2.1)],
      messages := st.messages ++ r1.2 ++ r2.2 }
  else
    let block := availableCodes.map (fun code => (alookup code combined).getD [])
    let r ← resolve_duplicates canonical block nrows meta? task.options
    let r1 ← applyDtypeOpt r.series meta? task.options
    let r2 := applyTransformsOpt r1.1 meta? task.options
    return { st with
      cols := st.cols ++ [(canonical, r2.1)],
      messages := st.messages ++ r.messages ++ r1.2 ++ r2.2,
      resolvedTotal := st.resolvedTotal + r.resolved,
      unresolvedTotal := st.unresolvedTotal + r.unresolved }

/-- process_year from src/psid_tool.py (lines 810-939). -/
def process_year (task : YearTask) : Except String YearResult := do
  if task.files = [] then
    return ⟨task.year, none,
      [("WARNING", "No files found for year " ++ toString task.year)], []⟩
  let st ← task.files.foldlM (processFile task) ⟨[], [], [], []⟩
  if st.combined_frames = [] then
    return ⟨task.year, none,
      st.messages ++ [("ERROR", "No usable files for year " ++ toString task.year)],
      st.audit_rows⟩
  let allCols := st.combined_frames.flatten
  let nrows := (allCols.map (fun p => p.2.length)).foldl max 0
  let combined := allCols.map (fun p => (normHdr p.1, padTo nrows p.2))
  let cst ← (sortStrings task.all_canonicals).foldlM
    (processCanonical task combined nrows) ⟨[], [], 0, 0⟩
  let orderedCanonicals := (cst.cols.map (fun p => p.1)).dedup
  let frame := ("year", List.replicate nrows (Val.num ((task.year : Int) : Rat))) ::
    orderedCanonicals.map (fun c => (c, (alookup c cst.cols).getD []))
  let presentCanon := ((st.assigned.map (fun p => p.1)).filterMap
    (fun code => alookup code task.var_code_to_canonical)).dedup
  let missingReq := ((task.all_canonicals.dedup).filter
    (fun c => ¬ presentCanon.contains c)).length
  let audit := st.audit_rows.map (fun row => { row with
    duplicate_canonicals_resolved := cst.resolvedTotal,
    duplicate_canonicals_unresolved := cst.unresolvedTotal,
    missing_required := missingReq })
  return ⟨task.year, some frame,
    st.messages ++ cst.messages ++ [("INFO", "Processed year " ++ toString task.year)],
    audit⟩

/-- The assembled panel: a header and its data rows. -/
structure Panel where
  header : List String
  rows : List (List Val)
deriving DecidableEq, Repr

/-- Row count of a per-year frame (every column of a worker frame has
the index length; the leading year column carries it). -/
def frameNRows (f : List (String × Column)) : Nat :=
  (f.headD ("", [])).2.length

/-- Back-filling of canonicals missing from one year frame followed by
column reordering (src/psid_tool.py lines 1028-1034). -/
def alignedFrame (canonList : List String) (f : List (String × Column)) :
    List (String × Column) :=
  ("year" :: canonList).map
    (fun c => (c, (alookup c f).getD (List.replicate (frameNRows f) Val.na)))

/-- The rows of an aligned frame, read off column-wise. -/
def frameRows (f : List (String × Column)) : List (List Val) :=
  (List.range (frameNRows f)).map (fun i => f.map (fun p => p.2.getD i Val.na))

/-- Sort key for the final panel sort by year; year cells are always
numeric. -/
def rowYearLe (r1 r2 : List Val) : Prop :=
  (match r1.headD Val.na with | .num q => q | _ => 0) ≤
  (match r2.headD Val.na with | .num q => q | _ => 0)

instance : DecidableRel rowYearLe := by
  intro r1 r2
  unfold rowYearLe
  infer_instance

instance : IsTotal (List Val) rowYearLe :=
  ⟨fun a b => le_total _ _⟩

instance : IsTrans (List Val) rowYearLe :=
  ⟨fun _ _ _ h1 h2 => le_trans h1 h2⟩

/-- Result-merging phase of run_extract (src/psid_tool.py lines
1003-1037): sort results by year, collect audit rows and frames, build
the canonical inventory, abort when no year produced data, align
columns, concatenate and sort the panel by year.  The model sorts
stably; the source sort need not be stable, and no claim depends on
the relative order of equal-year rows. -/
def run_extract_merge (results : List YearResult) :
    Except String (Panel × List AuditRow) :=
  let sorted := List.insertionSort (fun a b : YearResult => a.year ≤ b.year) results
  let audit := (sorted.map (fun r => r.audit_rows)).flatten
  let frames := sorted.filterMap (fun r => r.frame)
  let inventory := sortStrings
    (((frames.map (fun f => (f.map (fun p => p.1)).filter (fun c => c ≠ "year"))).flatten).dedup)
  if frames = [] then Except.error "No year produced data; aborting extraction"
  else
    let aligned := frames.map (alignedFrame inventory)
    let allRows := (aligned.map frameRows).flatten
    Except.ok (⟨"year" :: inventory, List.insertionSort rowYearLe allRows⟩, audit)

/-- run_extract restricted to its orchestration core: the per-year
tasks are executed (sequentially or by a pool; both give the same list
of results) and the results merged.  A strict-mode exception inside a
worker propagates. -/
def run_extract_tasks (tasks : List YearTask) :
    Except String (Panel × List AuditRow) := do
  if tasks = [] then
    Except.error "No overlapping years between mapping and data files"
  else
    let results ← tasks.mapM process_year
    run_extract_merge results

/-! Embedding of src/make_canonical_grid.py: normalisation, the AGE
override matchers, label_to_concept, and the scorer with its
deterministic tie-break. -/

/-- String to character list (shorthand). -/
def strToL (s : String) : List Char :=
  s.toList

/-- Word-boundary test of regex \b between two optional adjacent
characters (absent characters count as non-word). -/
def isWordOpt : Option Char → Bool
  | none => false
  | some c => isWordChar c

def wordBoundary (a b : Option Char) : Bool :=
  isWordOpt a ≠ isWordOpt b

/-- Generic left-to-right non-overlapping regex substitution scanner.
tryFn receives the character before the current position and the rest
of the input; a returned length n (necessarily positive) consumes n
characters and emits the replacement.  This reproduces Python re.sub
for the concrete patterns modelled below. -/
def scanSubGo (tryFn : Option Char → List Char → Option Nat) (rep : List Char) :
    Nat → Option Char → List Char → List Char
  | _, _, [] => []
  | Nat.succ k, _, c :: rest => scanSubGo tryFn rep k (some c) rest
  | 0, prev, c :: rest =>
      match tryFn prev (c :: rest) with
      | some n => rep ++ scanSubGo tryFn rep (n - 1) (some c) rest
      | none => c :: scanSubGo tryFn rep 0 (some c) rest

def scanSub (tryFn : Option Char → List Char → Option Nat) (rep : List Char)
    (s : List Char) : List Char :=
  scanSubGo tryFn rep 0 none s

/-- Matcher for a word-bounded literal key (the pattern
backslash-b KEY backslash-b with KEY escaped literally). -/
def tryWord (key : List Char) (prev : Option Char) (s : List Char) : Option Nat :=
  if key.isPrefixOf s ∧ wordBoundary prev s.head? ∧
      wordBoundary key.getLast? ((s.drop key.length).head?) then
    some key.length
  else none

/-- re.sub of a word-bounded literal key by a replacement. -/
def subWord (key val : List Char) (s : List Char) : List Char :=
  scanSub (tryWord key) val s

/-- Matcher for WAVE_RE: a parenthesised wave marker (w followed by
digits, input already lower-cased). -/
def tryWave (_ : Option Char) (s : List Char) : Option Nat :=
  match s with
  | '(' :: 'w' :: rest =>
      let ds := rest.takeWhile Char.isDigit
      if ds ≠ [] ∧ (rest.drop ds.length).head? = some ')' then some (2 + ds.length + 1)
      else none
  | _ => none

/-- Matcher for YEAR2_RE: a word-bounded two-digit run. -/
def tryYear2 (prev : Option Char) (s : List Char) : Option Nat :=
  match s with
  | c1 :: c2 :: rest =>
      if ¬ isWordOpt prev ∧ c1.isDigit ∧ c2.isDigit ∧ ¬ isWordOpt rest.head? then some 2
      else none
  | _ => none

/-- Matcher for YEAR4_RE: a word-bounded four-digit run starting 19 or
20. -/
def tryYear4 (prev : Option Char) (s : List Char) : Option Nat :=
  match s with
  | c1 :: c2 :: c3 :: c4 :: rest =>
      if ¬ isWordOpt prev ∧ ((c1 = '1' ∧ c2 = '9') ∨ (c1 = '2' ∧ c2 = '0')) ∧
          c3.isDigit ∧ c4.isDigit ∧ ¬ isWordOpt rest.head? then some 4
      else none
  | _ => none

/-- Bracket characters removed by BRACKETS_RE. -/
def isBracketChar (c : Char) : Bool :=
  c = '[' || c = ']' || c = '(' || c = ')' || c.toNat = 123 || c.toNat = 125

def tryBracket (_ : Option Char) (s : List Char) : Option Nat :=
  match s with
  | c :: _ => if isBracketChar c then some 1 else none
  | [] => none

/-- Characters removed by PUNCT_RE (not word, not whitespace, not a
slash). -/
def isPunctBad (c : Char) : Bool :=
  ¬ isWordChar c && ¬ isWs c && c ≠ '/'

def tryPunct (_ : Option Char) (s : List Char) : Option Nat :=
  match s with
  | c :: rest =>
      if isPunctBad c then some (1 + (rest.takeWhile isPunctBad).length) else none
  | [] => none

/-- Matcher for WS_RE: a whitespace run. -/
def tryWsRun (_ : Option Char) (s : List Char) : Option Nat :=
  match s with
  | c :: rest => if isWs c then some (1 + (rest.takeWhile isWs).length) else none
  | [] => none

/-- WS_RE.sub with a single space. -/
def wsCollapse (s : List Char) : List Char :=
  scanSub tryWsRun [' '] s

/-- normalize_phrase from src/make_canonical_grid.py (lines 73-81). -/
def normalize_phrase (label : String) : List Char :=
  let s0 := trimWs (lowerList label.toList)
  let s1 := scanSub tryWave [' '] s0
  let s2 := scanSub tryYear2 [' '] s1
  let s3 := scanSub tryYear4 [' '] s2
  let s4 := scanSub tryBracket [' '] s3
  let s5 := scanSub tryPunct [' '] s4
  trimWs (wsCollapse s5)

/-- Python str.split with no argument: whitespace-delimited tokens,
empties dropped.  The pieces carry the empty runs; splitWs filters
them. -/
def wsPieces (s : List Char) : List (List Char) :=
  s.foldr (fun c acc =>
    if isWs c then [] :: acc
    else (c :: acc.headD []) :: acc.tail) [[]]

def splitWs (s : List Char) : List (List Char) :=
  (wsPieces s).filter (fun t => t ≠ [])

/-- The piece builder of wsPieces with an explicit starting
accumulator (used to reason about concatenations). -/
def wsPiecesFrom (s : List Char) (acc : List (List Char)) : List (List Char) :=
  s.foldr (fun c acc =>
    if isWs c then [] :: acc
    else (c :: acc.headD []) :: acc.tail) acc

/-- Join of pieces with a fixed separator, used to state the
match decomposition of subWord. -/
def interleave (sep : List Char) : List (List Char) → List Char
  | [] => []
  | [p] => p
  | p :: ps => p ++ sep ++ interleave sep ps

/-- STOP_TOKENS from src/make_canonical_grid.py. -/
def STOP_TOKENS : List (List Char) :=
  ["imp", "acc", "wtr", "whether", "ever", "any",
   "of", "the", "a", "an", "and", "or", "to", "in", "for", "by",
   "head", "hh", "household"].map strToL

/-- DIGIT_TOK_RE.fullmatch on a token: a non-empty all-digit token. -/
def allDigits (t : List Char) : Bool :=
  t ≠ [] && t.all Char.isDigit

/-- SYNONYMS from src/make_canonical_grid.py, in insertion order. -/
def SYNONYMS : List (String × String) :=
  [("annuity/ira", "ira"), ("iras", "ira"), ("stock market", "stocks"),
   ("stock", "stocks"), ("wealth without equity", "wealth_wo_equity"),
   ("wealth w/o equity", "wealth_wo_equity"), ("home equity", "home_equity"),
   ("other asset", "other_assets"), ("other assets", "other_assets"),
   ("vehicle", "vehicles"), ("vehicles", "vehicles"), ("balance", "value"),
   ("account", "acct"), ("accounts", "acct"), ("mortgages", "mortgage")]

/-- apply_synonyms from src/make_canonical_grid.py (lines 83-87). -/
def apply_synonyms (s : List Char) : List Char :=
  trimWs (wsCollapse
    (SYNONYMS.foldl (fun acc kv => subWord (strToL kv.1) (strToL kv.2) acc) s))

/-- Character at a position, as an Option. -/
def charAt (s : List Char) (i : Nat) : Option Char :=
  (s.drop i).head?

/-- Occurrence of a word-bounded literal at position i (the regex
fragment backslash-b W backslash-b matched at i). -/
def occursWordAt (s w : List Char) (i : Nat) : Bool :=
  (s.drop i).take w.length = w ∧
  wordBoundary (if i = 0 then none else charAt s (i - 1)) (charAt s i) ∧
  wordBoundary (charAt s (i + w.length - 1)) (charAt s (i + w.length))

/-- re.search of a pattern X .* Y where X and Y are word-bounded
alternative lists; the dot of the gap does not match a newline. -/
def matchGap (xs ys : List (List Char)) (s : List Char) : Bool :=
  xs.any (fun x => ys.any (fun y =>
    (List.range (s.length + 1)).any (fun i =>
      occursWordAt s x i ∧
      (List.range (s.length + 1)).any (fun j =>
        i + x.length ≤ j ∧ occursWordAt s y j ∧
        ((s.drop (i + x.length)).take (j - (i + x.length))).all (fun c => c ≠ '\n')))))

/-- re.search of a word-bounded literal phrase alternative list. -/
def matchPhrase (phrases : List (List Char)) (s : List Char) : Bool :=
  phrases.any (fun w => (List.range (s.length + 1)).any (fun i => occursWordAt s w i))

/-- Alternatives of the head-person group of AGE_PATTERNS. -/
def headAlts : List (List Char) :=
  ["head", "reference person", "ref person", "respondent", "hd"].map strToL

/-- Alternatives of the spouse group of AGE_SPOUSE_PATTERNS. -/
def spouseAlts : List (List Char) :=
  ["spouse", "wife", "husband", "partner"].map strToL

/-- is_match_any over AGE_PATTERNS (src/make_canonical_grid.py lines
92-96 and 103-105); the matcher lower-cases its input as is_match_any
does. -/
def isMatchAgeHead (s : List Char) : Bool :=
  let t := lowerList s
  matchGap [strToL "age"] headAlts t ||
  matchGap headAlts [strToL "age"] t ||
  matchPhrase (["age of head", "age of reference person", "age of ref person",
    "age of respondent"].map strToL) t

/-- is_match_any over AGE_SPOUSE_PATTERNS (src/make_canonical_grid.py
lines 97-101). -/
def isMatchAgeSpouse (s : List Char) : Bool :=
  let t := lowerList s
  matchGap [strToL "age"] spouseAlts t ||
  matchGap spouseAlts [strToL "age"] t ||
  matchPhrase (["age of spouse", "age of wife", "age of husband",
    "age of partner"].map strToL) t

/-- Whitespace join of tokens (single spaces), the Python
space-join. -/
def joinSpace : List (List Char) → List Char
  | [] => []
  | [t] => t
  | t :: ts => t ++ ' ' :: joinSpace ts

/-- label_to_concept from src/make_canonical_grid.py (lines 107-131):
normalisation, stopword and digit-token filtering, synonyms, the
value-of contraction, then the AGE override evaluated on the original
lower-cased label. -/
def label_to_concept (label : String) : String :=
  if trimWs label.toList = [] then ""
  else
    let raw_low := lowerList label.toList
    let s := normalize_phrase label
    let tokens := (splitWs s).filter
      (fun t => ¬ STOP_TOKENS.contains t ∧ ¬ allDigits t)
    let s2a := joinSpace tokens
    let s2b := apply_synonyms s2a
    let s2c := subWord (strToL "value of") (strToL "value") s2b
    let s2 := trimWs (wsCollapse s2c)
    if isMatchAgeHead raw_low then "demographics :: age_head"
    else if isMatchAgeSpouse raw_low then "demographics :: age_spouse"
    else String.mk s2

/-- One mapping row as seen by the scorer of make_canonical_grid
(after the concept column has been derived). -/
structure GridRow where
  year : String
  var_code : String
  label : String
  file_type : String
  concept : String
deriving DecidableEq, Repr

/-- Python substring containment (the in operator on strings). -/
def containsSub (needle hay : List Char) : Bool :=
  (List.range (hay.length + 1)).any (fun i => (hay.drop i).take needle.length = needle)

/-- score_row from src/make_canonical_grid.py (lines 135-168); the
frequency table is the precomputed global var_code value-count
dictionary. -/
def score_row (row : GridRow) (prefer_module : String) (code_freq : String → Nat) : Int :=
  let label := lowerList row.label.toList
  let var := row.var_code
  let modU := row.file_type.toList.map Char.toUpper
  let concept := row.concept
  let s1 : Int := if containsSub (strToL "acc") (' ' :: label ++ [' ']) then 3 else 0
  let s2 : Int := if containsSub (strToL "imp") (' ' :: label ++ [' ']) then -3 else 0
  let s3 : Int := if var.toList.getLast? = some 'A' then 2 else 0
  let s4 : Int := if containsSub (strToL "value") label then 1 else 0
  let s5 : Int :=
    if containsSub (strToL "whether") label ∨ containsSub (strToL "wtr") (' ' :: label ++ [' ']) then
      -1
    else 0
  let s6 : Int :=
    if (strToL "demographics :: age_").isPrefixOf concept.toList then
      (if modU = strToL "FAM" then 5 else 0)
    else
      (if (prefer_module = "WLTH" ∨ prefer_module = "FAM") ∧ modU = prefer_module.toList then 1
       else 0)
  let s7 : Int := Int.ofNat (min (label.length / 40) 2)
  let s8 : Int := Int.ofNat (min (code_freq var) 2)
  s1 + s2 + s3 + s4 + s5 + s6 + s7 + s8

/-- Global var_code frequency table of a mapping table
(value_counts). -/
def code_freq_of (rows : List GridRow) : String → Nat :=
  fun v => (rows.map (fun r => r.var_code)).count v

/-- Sort key of the deterministic tie-break sort of main
(src/make_canonical_grid.py lines 244-248): concept and year
ascending, score descending, file_type ascending, label length
descending, var_code ascending.  Descending components are encoded by
integer negation; the composite is ordered lexicographically. -/
def rowSortKey (prefer : String) (freq : String → Nat) (r : GridRow) :
    String ×ₗ String ×ₗ Int ×ₗ String ×ₗ Int ×ₗ String :=
  toLex (r.concept, toLex (r.year, toLex (-(score_row r prefer freq),
    toLex (r.file_type, toLex (-(r.label.length : Int), r.var_code)))))

/-- The relation the stable multi-key pandas sort realises. -/
def rowLe (prefer : String) (freq : String → Nat) (a b : GridRow) : Prop :=
  rowSortKey prefer freq a ≤ rowSortKey prefer freq b

instance (prefer : String) (freq : String → Nat) : DecidableRel (rowLe prefer freq) := by
  intro a b
  unfold rowLe
  infer_instance

/-- Winner selection of main (src/make_canonical_grid.py lines
244-249): the var_code of the head of the sorted group of rows sharing
one (concept, year) cell, scored against the global frequency table of
the whole mapping.  Since concept and year agree inside the group, the
full sort key reduces there to the tie-break tail, so the per-group
head of the global sort is the head of the sorted group. -/
def pickedFor (rows : List GridRow) (prefer : String) (c y : String) : Option String :=
  let freq := code_freq_of rows
  let group := rows.filter (fun r => r.concept = c ∧ r.year = y)
  (List.insertionSort (rowLe prefer freq) group).head?.map (fun r => r.var_code)

/-! Theorems.  Helper lemmas come first, then one theorem per claim
(with witnesses and counterexamples where required). -/

theorem unionOps_cons (a : List TransformOperation) (op : TransformOperation)
    (rest : List TransformOperation) :
    unionOps a (op :: rest) =
      if a.any (fun o => opKey o = opKey op) then unionOps a rest
      else unionOps (a ++ [op]) rest := by
  simp only [unionOps, List.foldl_cons]
  split <;> rfl

theorem unionOps_eq_append_newOps (a b : List TransformOperation) :
    unionOps a b = a ++ newOps a b := by
  induction b generalizing a with
  | nil => simp [unionOps, newOps]
  | cons op rest ih =>
      rw [unionOps_cons, newOps]
      by_cases h : (a.any (fun o => opKey o = opKey op)) = true
      · rw [if_pos h, if_pos h, ih a]
      · rw [if_neg h, if_neg h, ih (a ++ [op])]
        simp

theorem unionOps_self (l : List TransformOperation) : unionOps l l = l := by
  have key : ∀ (b acc : List TransformOperation),
      (∀ op ∈ b, acc.any (fun o => opKey o = opKey op) = true) →
      b.foldl (fun acc op =>
        if acc.any (fun o => opKey o = opKey op) then acc else acc ++ [op]) acc = acc := by
    intro b
    induction b with
    | nil => intro acc _; rfl
    | cons op rest ih =>
        intro acc h
        have h1 : acc.any (fun o => opKey o = opKey op) = true := h op (by simp)
        simp only [List.foldl_cons, h1, if_pos]
        exact ih acc (fun o ho => h o (by simp [ho]))
  exact key l l (fun op hop => by
    simp only [List.any_eq_true]
    exact ⟨op, hop, by simp⟩)

/-- C9: merging a TransformSpec into itself is idempotent: the
operation list does not grow and the duplicate strategy is unchanged
(the merged spec is equal to the original). -/
theorem c9_merge_self_idempotent (S : TransformSpec) : S.merge S = S := by
  unfold TransformSpec.merge
  by_cases h : pyTruthy S.duplicate_strategy = true
  · simp [h, unionOps_self]
  · simp [h, unionOps_self]

/-- C2 counterexample: when the two specs declare conflicting duplicate
strategies, TransformSpec.merge returns before the operation union, so
the second spec's operation (strip) is not added, contradicting the
claim that operations are still unioned in on a strategy conflict. -/
theorem c2_counterexample :
    (TransformSpec.merge
        ⟨[⟨"to_int", none⟩], some "first_non_na"⟩
        ⟨[⟨"strip", none⟩], some "sum_non_na"⟩).operations
      = [⟨"to_int", none⟩] ∧
    ¬ ((⟨"strip", none⟩ : TransformOperation) ∈ (TransformSpec.merge
        ⟨[⟨"to_int", none⟩], some "first_non_na"⟩
        ⟨[⟨"strip", none⟩], some "sum_non_na"⟩).operations) := by
  constructor
  · rfl
  · decide

/-- C2 amended: merging B into A unions B's operations into A keyed by
(name, params) identity preserving first-seen order and keeps A's
duplicate strategy (first wins), except that when both specs declare a
non-empty strategy and the strategies differ the merge returns A
unchanged, so B's operations are not unioned in that case (and merge
itself logs nothing). -/
theorem c2_merge_characterisation (A B : TransformSpec) :
    A.merge B =
      if pyTruthy A.duplicate_strategy ∧ pyTruthy B.duplicate_strategy ∧
          A.duplicate_strategy ≠ B.duplicate_strategy then A
      else
        ⟨A.operations ++ newOps A.operations B.operations,
          if pyTruthy A.duplicate_strategy then A.duplicate_strategy
          else if pyTruthy B.duplicate_strategy then B.duplicate_strategy
          else A.duplicate_strategy⟩ := by
  unfold TransformSpec.merge
  by_cases hb : pyTruthy B.duplicate_strategy = true
  · by_cases ha : pyTruthy A.duplicate_strategy = true
    · by_cases hd : A.duplicate_strategy = B.duplicate_strategy
      · simp [ha, hb, hd, unionOps_eq_append_newOps]
      · simp [ha, hb, hd]
    · simp [ha, hb, unionOps_eq_append_newOps]
  · by_cases ha : pyTruthy A.duplicate_strategy = true
    · simp [ha, hb, unionOps_eq_append_newOps]
    · simp [ha, hb, unionOps_eq_append_newOps]

/-- C7 counterexample: the year value 1800 parses as an integer, yet
read_mapping drops the row (and raises in fail-fast mode), because the
kept years must additionally start with a 19xx or 20xx four-digit
prefix. -/
theorem c7_counterexample :
    pyIntParse "1800" = some 1800 ∧
    readMappingYears [("1800", (0 : Nat))] false = Except.ok [] ∧
    readMappingYears [("1800", (0 : Nat))] true =
      Except.error "Dropped rows with invalid year values" := by
  refine ⟨by decide, rfl, rfl⟩

/-- C7 amended: a mapping row is kept exactly when its year value
parses as a nonzero integer whose decimal rendering begins with 19 or
20 followed by two digits; all other rows are dropped in permissive
mode, and in fail-fast mode the presence of any such row raises
instead. -/
theorem c7_read_mapping_years {α : Type} (rows : List (String × α)) :
    readMappingYears rows false =
      Except.ok (rows.filterMap (fun r =>
        match pyIntParse r.1 with
        | none => none
        | some z =>
            if z ≠ 0 ∧ matchYearPat (toString z) then some (z, r.2) else none)) ∧
    readMappingYears rows true =
      (if rows.all (fun r =>
          match pyIntParse r.1 with
          | none => false
          | some z => decide (z ≠ 0 ∧ matchYearPat (toString z))) then
        Except.ok (rows.filterMap (fun r =>
          match pyIntParse r.1 with
          | none => none
          | some z =>
              if z ≠ 0 ∧ matchYearPat (toString z) then some (z, r.2) else none))
      else Except.error "Dropped rows with invalid year values") := by
  have hfun : ∀ r : String × α,
      ((yearCell r.1).1).map (fun z => (z, r.2)) =
        (match pyIntParse r.1 with
          | none => none
          | some z =>
              if z ≠ 0 ∧ matchYearPat (toString z) then some (z, r.2) else none) := by
    intro r
    unfold yearCell
    cases pyIntParse r.1 with
    | none => rfl
    | some z =>
        by_cases hz : z ≠ 0 ∧ matchYearPat (toString z) = true
        · simp [hz]
        · simp [hz]
  have hcells : (rows.map (fun r => (yearCell r.1, r.2))).filterMap
        (fun c => (c.1.1).map (fun z => (z, c.2))) =
      rows.filterMap (fun r =>
        match pyIntParse r.1 with
        | none => none
        | some z =>
            if z ≠ 0 ∧ matchYearPat (toString z) then some (z, r.2) else none) := by
    rw [List.filterMap_map]
    exact List.filterMap_congr (fun r _ => hfun r)
  have hzero : ∀ r : String × α, ((yearCell r.1).2 = 0) ↔
      ((match pyIntParse r.1 with
        | none => false
        | some z => decide (z ≠ 0 ∧ matchYearPat (toString z))) = true) := by
    intro r
    unfold yearCell
    cases pyIntParse r.1 with
    | none => simp
    | some z =>
        by_cases hz : z ≠ 0 ∧ matchYearPat (toString z) = true
        · simp [hz]
        · simp [hz]
  have hsum : (((rows.map (fun r => (yearCell r.1, r.2))).map (fun c => c.1.2)).sum = 0) ↔
      (rows.all (fun r =>
        match pyIntParse r.1 with
        | none => false
        | some z => decide (z ≠ 0 ∧ matchYearPat (toString z))) = true) := by
    rw [List.map_map, List.sum_eq_zero_iff, List.all_eq_true]
    constructor
    · intro h r hr
      exact (hzero r).mp (h _ (List.mem_map_of_mem _ hr))
    · intro h x hx
      rcases List.mem_map.mp hx with ⟨r, hr, rfl⟩
      exact (hzero r).mpr (h r hr)
  constructor
  · simp only [readMappingYears]
    by_cases h : (((rows.map (fun r => (yearCell r.1, r.2))).map (fun c => c.1.2)).sum ≠ 0)
    · rw [if_pos h, if_neg Bool.false_ne_true, hcells]
    · rw [if_neg h, hcells]
  · simp only [readMappingYears]
    by_cases h : (((rows.map (fun r => (yearCell r.1, r.2))).map (fun c => c.1.2)).sum ≠ 0)
    · have hall : ¬ (rows.all (fun r =>
          match pyIntParse r.1 with
          | none => false
          | some z => decide (z ≠ 0 ∧ matchYearPat (toString z))) = true) := by
        intro hc
        exact h (hsum.mpr hc)
      rw [if_pos h, if_neg hall]
      simp only [if_true]
    · have h0 : (((rows.map (fun r => (yearCell r.1, r.2))).map (fun c => c.1.2)).sum = 0) :=
        not_not.mp h
      have hall : (rows.all (fun r =>
          match pyIntParse r.1 with
          | none => false
          | some z => decide (z ≠ 0 ∧ matchYearPat (toString z))) = true) := hsum.mp h0
      rw [if_neg h, if_pos hall, hcells]

/-- C7 amended witness at concrete rows: 1999 is kept, 1800 is dropped
in permissive mode. -/
theorem c7_read_mapping_years_witness :
    readMappingYears [("1999", (0 : Nat)), ("1800", 1)] false =
      Except.ok [((1999 : Int), (0 : Nat))] :=
  ((c7_read_mapping_years [("1999", (0 : Nat)), ("1800", 1)]).1).trans
    (congrArg Except.ok (by decide))

/-- C10: resolve_duplicates with zero source columns returns an
all-missing series named for the canonical with both duplicate counts
zero, and with exactly one source column returns that column unchanged
(renamed only) with both counts zero, regardless of any declared
duplicate strategy. -/
theorem c10_resolve_trivial_blocks (canonical : String) (block : List Column)
    (nrows : Nat) (meta : Option CanonicalMeta) (options : ExtractionOptions) :
    (block = [] →
      resolve_duplicates canonical block nrows meta options =
        Except.ok ⟨canonical, List.replicate nrows Val.na, 0, 0, []⟩) ∧
    (∀ c, block = [c] →
      resolve_duplicates canonical block nrows meta options =
        Except.ok ⟨canonical, c, 0, 0, []⟩) := by
  constructor
  · rintro rfl
    rfl
  · rintro c rfl
    simp [resolve_duplicates]

/-- C10 witness: a single source column is passed through unchanged
even though a sum_non_na strategy is declared. -/
theorem c10_resolve_trivial_blocks_witness :
    resolve_duplicates "wealth" [[Val.num 7, Val.na]] 2
        (some ⟨"wealth", none, ⟨[], some "sum_non_na"⟩, none, none, none⟩)
        ⟨true, true, none, true, false⟩ =
      Except.ok ⟨"wealth", [Val.num 7, Val.na], 0, 0, []⟩ :=
  (c10_resolve_trivial_blocks "wealth" [[Val.num 7, Val.na]] 2
      (some ⟨"wealth", none, ⟨[], some "sum_non_na"⟩, none, none, none⟩)
      ⟨true, true, none, true, false⟩).2 [Val.num 7, Val.na] rfl

/-- C5: with the sum_non_na strategy and at least two source columns,
resolve_duplicates returns the row-wise numeric sum of the non-missing
values, and a row whose cells are all missing stays missing. -/
theorem c5_sum_non_na (canonical : String) (block : List Column) (nrows : Nat)
    (meta : Option CanonicalMeta) (options : ExtractionOptions)
    (hstrat : stratOf meta = some "sum_non_na") (h2 : 2 ≤ block.length) :
    resolve_duplicates canonical block nrows meta options =
      Except.ok ⟨canonical,
        (List.range nrows).map (fun i => sumNonNA (rowAt block i)),
        block.length - 1, 0, []⟩ ∧
    ∀ i, (∀ col ∈ block, col.getD i Val.na = Val.na) →
      sumNonNA (rowAt block i) = Val.na := by
  constructor
  · have h0 : ¬ (block.length = 0) := by omega
    have h1 : ¬ (block.length = 1) := by omega
    simp [resolve_duplicates, h0, h1, hstrat]
  · intro i hall
    have hnil : (rowAt block i).filterMap toNumeric = [] := by
      rw [List.filterMap_eq_nil_iff]
      intro v hv
      rcases List.mem_map.mp hv with ⟨col, hcol, rfl⟩
      rw [hall col hcol]
      rfl
    simp [sumNonNA, hnil]

/-- C5 witness: sum_non_na over the columns [NA, 5] and [3, NA] gives
the row-wise sums [3, 5]; neither row is coerced to zero. -/
theorem c5_sum_non_na_witness :
    resolve_duplicates "wealth" [[Val.na, Val.num 5], [Val.num 3, Val.na]] 2
        (some ⟨"wealth", none, ⟨[], some "sum_non_na"⟩, none, none, none⟩)
        ⟨true, true, none, false, false⟩ =
      Except.ok ⟨"wealth", [Val.num 3, Val.num 5], 1, 0, []⟩ := by
  have h := (c5_sum_non_na "wealth" [[Val.na, Val.num 5], [Val.num 3, Val.na]] 2
      (some ⟨"wealth", none, ⟨[], some "sum_non_na"⟩, none, none, none⟩)
      ⟨true, true, none, false, false⟩ rfl (by decide)).1
  rw [h]
  congr 1
  simp [sumNonNA, rowAt, toNumeric, List.range_succ, List.range_zero]

/-! Structure of splitWs (used for claims C6 and C8). -/

theorem wsPieces_cons (c : Char) (s : List Char) :
    wsPieces (c :: s) =
      if isWs c then [] :: wsPieces s
      else (c :: (wsPieces s).headD []) :: (wsPieces s).tail := rfl

theorem wsPieces_ne_nil (s : List Char) : wsPieces s ≠ [] := by
  induction s with
  | nil => simp [wsPieces]
  | cons c s ih =>
      rw [wsPieces_cons]
      cases hc : isWs c <;> simp

theorem splitWs_nil : splitWs [] = [] := rfl

theorem splitWs_cons_ws {c : Char} (s : List Char) (h : isWs c = true) :
    splitWs (c :: s) = splitWs s := by
  unfold splitWs
  rw [wsPieces_cons, h]
  simp

theorem headD_wsPieces (s : List Char) :
    (wsPieces s).headD [] = s.takeWhile (fun c => !(isWs c)) := by
  induction s with
  | nil => rfl
  | cons c s ih =>
      rw [wsPieces_cons]
      cases hc : isWs c
      · simp only [Bool.false_eq_true, if_false, List.headD_cons, List.takeWhile_cons, hc,
          Bool.not_false, if_true]
        rw [ih]
      · simp [List.takeWhile_cons, hc]

theorem tail_wsPieces_filter (s : List Char) :
    ((wsPieces s).tail).filter (fun t => t ≠ []) =
      splitWs (s.dropWhile (fun c => !(isWs c))) := by
  induction s with
  | nil => rfl
  | cons c s ih =>
      rw [wsPieces_cons]
      cases hc : isWs c
      · simp only [Bool.false_eq_true, if_false, List.tail_cons, List.dropWhile_cons, hc,
          Bool.not_false, if_true]
        exact ih
      · simp only [if_true, List.tail_cons, List.dropWhile_cons, hc, Bool.not_true,
          Bool.false_eq_true, if_false]
        rw [splitWs_cons_ws s hc]
        rfl

theorem splitWs_cons_nonws {c : Char} (s : List Char) (h : isWs c = false) :
    splitWs (c :: s) =
      (c :: s.takeWhile (fun c => !(isWs c))) ::
        splitWs (s.dropWhile (fun c => !(isWs c))) := by
  show List.filter (fun t => t ≠ []) (wsPieces (c :: s)) = _
  rw [wsPieces_cons, h]
  simp only [Bool.false_eq_true, if_false]
  rw [List.filter_cons]
  rw [headD_wsPieces]
  have ht := tail_wsPieces_filter s
  simp only [ne_eq, List.cons_ne_nil, not_false_iff, if_true, decide_not]
  simp only [ne_eq, decide_not] at ht
  rw [ht]
  simp

theorem mem_wsPieces_nonws (s : List Char) :
    ∀ p ∈ wsPieces s, ∀ c ∈ p, isWs c = false := by
  induction s with
  | nil =>
      intro p hp c hc
      simp [wsPieces] at hp
      subst hp
      cases hc
  | cons d s ih =>
      intro p hp c hc
      rw [wsPieces_cons] at hp
      cases hd : isWs d
      · rw [hd] at hp
        simp only [Bool.false_eq_true, if_false] at hp
        rcases List.mem_cons.mp hp with he | hm
        · subst he
          rcases List.mem_cons.mp hc with he2 | hm2
          · subst he2
            exact hd
          · rcases hP : wsPieces s with _ | ⟨p0, ps⟩
            · exact absurd hP (wsPieces_ne_nil s)
            · rw [hP] at hm2
              simp only [List.headD_cons] at hm2
              exact ih p0 (by rw [hP]; exact List.mem_cons_self _ _) c hm2
        · exact ih p (List.mem_of_mem_tail hm) c hc
      · rw [hd] at hp
        simp only [if_true] at hp
        rcases List.mem_cons.mp hp with he | hm
        · subst he
          cases hc
        · exact ih p hm c hc

theorem splitWs_mem_ne_nil {s : List Char} {t : List Char} (h : t ∈ splitWs s) :
    t ≠ [] := by
  unfold splitWs at h
  have := List.of_mem_filter h
  simpa using this

theorem splitWs_mem_nonws {s : List Char} {t : List Char} (h : t ∈ splitWs s) :
    ∀ c ∈ t, isWs c = false := by
  unfold splitWs at h
  exact mem_wsPieces_nonws s t (List.mem_of_mem_filter h)

theorem takeWhile_append_all {p : Char → Bool} {a : List Char} (z : List Char)
    (ha : ∀ c ∈ a, p c = true) :
    (a ++ z).takeWhile p = a ++ z.takeWhile p := by
  induction a with
  | nil => rfl
  | cons c a ih =>
      rw [List.cons_append, List.takeWhile_cons, ha c (by simp)]
      simp only [if_true]
      rw [ih (fun d hd => ha d (by simp [hd]))]
      rfl

theorem dropWhile_append_all {p : Char → Bool} {a : List Char} (z : List Char)
    (ha : ∀ c ∈ a, p c = true) :
    (a ++ z).dropWhile p = z.dropWhile p := by
  induction a with
  | nil => rfl
  | cons c a ih =>
      rw [List.cons_append, List.dropWhile_cons, ha c (by simp)]
      simp only [if_true]
      exact ih (fun d hd => ha d (by simp [hd]))

theorem dropWhile_head_false {p : Char → Bool} :
    ∀ (l : List Char) {d : Char} {zs : List Char},
      l.dropWhile p = d :: zs → p d = false := by
  intro l
  induction l with
  | nil => intro d zs h; cases h
  | cons c l ih =>
      intro d zs h
      rw [List.dropWhile_cons] at h
      by_cases hc : p c = true
      · rw [if_pos hc] at h
        exact ih h
      · rw [if_neg hc] at h
        cases h
        simpa using hc

/-- Head of a token boundary: a non-empty whitespace-free token
followed by a string that is empty or starts with whitespace is the
first token of the concatenation. -/
theorem splitWs_token_head (tok z : List Char) (htok : tok ≠ [])
    (hws : ∀ c ∈ tok, isWs c = false)
    (hz : z = [] ∨ ∃ d zs, z = d :: zs ∧ isWs d = true) :
    splitWs (tok ++ z) = tok :: splitWs z := by
  rcases tok with _ | ⟨c, tok'⟩
  · exact absurd rfl htok
  · have hc : isWs c = false := hws c (by simp)
    rw [List.cons_append, splitWs_cons_nonws _ hc]
    have hall : ∀ d ∈ tok', (fun c => !(isWs c)) d = true := by
      intro d hd
      simp [hws d (by simp [hd])]
    have htz : z.takeWhile (fun c => !(isWs c)) = [] := by
      rcases hz with rfl | ⟨d, zs, rfl, hd⟩
      · rfl
      · rw [List.takeWhile_cons]
        simp [hd]
    have hdz : z.dropWhile (fun c => !(isWs c)) = z := by
      rcases hz with rfl | ⟨d, zs, rfl, hd⟩
      · rfl
      · rw [List.dropWhile_cons]
        simp [hd]
    rw [takeWhile_append_all z hall, dropWhile_append_all z hall, htz, hdz]
    simp

theorem splitWs_all_ws (w : List Char) (hw : ∀ c ∈ w, isWs c = true) :
    splitWs w = [] := by
  induction w with
  | nil => rfl
  | cons c w ih =>
      rw [splitWs_cons_ws w (hw c (by simp))]
      exact ih (fun d hd => hw d (by simp [hd]))

theorem splitWs_dropWhile_ws (s : List Char) :
    splitWs (s.dropWhile isWs) = splitWs s := by
  induction s with
  | nil => rfl
  | cons c s ih =>
      rw [List.dropWhile_cons]
      cases hc : isWs c
      · simp [hc]
      · simp only [if_true]
        rw [ih, splitWs_cons_ws s hc]

theorem splitWs_append_ws :
    ∀ (n : Nat) (y : List Char), y.length ≤ n → ∀ (w : List Char),
      (∀ c ∈ w, isWs c = true) → splitWs (y ++ w) = splitWs y := by
  intro n
  induction n with
  | zero =>
      intro y hy w hw
      have : y = [] := List.length_eq_zero.mp (Nat.le_zero.mp hy)
      subst this
      simpa using splitWs_all_ws w hw
  | succ n ih =>
      intro y hy w hw
      rcases y with _ | ⟨c, y'⟩
      · simpa using splitWs_all_ws w hw
      · cases hc : isWs c
        · set tok := c :: y'.takeWhile (fun c => !(isWs c)) with htokdef
          set r := y'.dropWhile (fun c => !(isWs c)) with hrdef
          have hy'split : y' = y'.takeWhile (fun c => !(isWs c)) ++ r :=
            (List.takeWhile_append_dropWhile _ _).symm
          have hysplit : c :: y' = tok ++ r := by
            rw [htokdef, List.cons_append, ← hy'split]
          have htokne : tok ≠ [] := by simp [htokdef]
          have htokws : ∀ d ∈ tok, isWs d = false := by
            intro d hd
            rcases List.mem_cons.mp hd with he | hm
            · subst he; exact hc
            · have := List.mem_takeWhile_imp hm
              simpa using this
          have hr : r = [] ∨ ∃ d zs, r = d :: zs ∧ isWs d = true := by
            rcases hrr : r with _ | ⟨d, zs⟩
            · exact Or.inl rfl
            · refine Or.inr ⟨d, zs, rfl, ?_⟩
              have := dropWhile_head_false y' (by rw [← hrdef]; exact hrr)
              simpa using this
          have hrw : r ++ w = [] ∨ ∃ d zs, r ++ w = d :: zs ∧ isWs d = true := by
            rcases hr with hre | ⟨d, zs, hre, hd⟩
            · rw [hre]
              rcases w with _ | ⟨d, ws'⟩
              · exact Or.inl rfl
              · exact Or.inr ⟨d, ws', rfl, hw d (by simp)⟩
            · exact Or.inr ⟨d, zs ++ w, by rw [hre]; rfl, hd⟩
          rw [hysplit, List.append_assoc,
            splitWs_token_head tok (r ++ w) htokne htokws hrw,
            splitWs_token_head tok r htokne htokws hr]
          have hrlen : r.length ≤ n := by
            have h1 : r.length ≤ y'.length := by
              rw [hrdef]
              exact (List.dropWhile_sublist _).length_le
            have h2 : y'.length + 1 ≤ n + 1 := by simpa using hy
            omega
          rw [ih r hrlen w hw]
        · rw [List.cons_append, splitWs_cons_ws _ hc, splitWs_cons_ws _ hc]
          exact ih y' (by simpa using Nat.le_of_succ_le_succ hy) w hw

theorem splitWs_trimWs (x : List Char) : splitWs (trimWs x) = splitWs x := by
  unfold trimWs
  set u := x.dropWhile isWs with hu
  have h1 : splitWs u = splitWs x := splitWs_dropWhile_ws x
  have hsplit : u = (u.reverse.dropWhile isWs).reverse ++ (u.reverse.takeWhile isWs).reverse := by
    have h0 := List.takeWhile_append_dropWhile isWs u.reverse
    have h2 := congrArg List.reverse h0
    rw [List.reverse_append, List.reverse_reverse] at h2
    exact h2.symm
  have hws : ∀ c ∈ (u.reverse.takeWhile isWs).reverse, isWs c = true := by
    intro c hc
    rw [List.mem_reverse] at hc
    exact List.mem_takeWhile_imp hc
  calc splitWs (u.reverse.dropWhile isWs).reverse
      = splitWs ((u.reverse.dropWhile isWs).reverse ++ (u.reverse.takeWhile isWs).reverse) :=
        (splitWs_append_ws ((u.reverse.dropWhile isWs).reverse.length) _ (le_refl _) _ hws).symm
    _ = splitWs u := by rw [← hsplit]
    _ = splitWs x := h1

/-! Scanner lemmas and the match decomposition of subWord (claim C8). -/

theorem scanSubGo_nil (tryFn : Option Char → List Char → Option Nat) (rep : List Char)
    (n : Nat) (prev : Option Char) : scanSubGo tryFn rep n prev [] = [] := by
  cases n <;> rfl

theorem scanSubGo_succ (tryFn : Option Char → List Char → Option Nat) (rep : List Char)
    (k : Nat) (prev : Option Char) (c : Char) (rest : List Char) :
    scanSubGo tryFn rep (k + 1) prev (c :: rest) = scanSubGo tryFn rep k (some c) rest := rfl

theorem scanSubGo_zero_some {tryFn : Option Char → List Char → Option Nat} {rep : List Char}
    {prev : Option Char} {c : Char} {rest : List Char} {n : Nat}
    (h : tryFn prev (c :: rest) = some n) :
    scanSubGo tryFn rep 0 prev (c :: rest) =
      rep ++ scanSubGo tryFn rep (n - 1) (some c) rest := by
  simp only [scanSubGo, h]

theorem scanSubGo_zero_none {tryFn : Option Char → List Char → Option Nat} {rep : List Char}
    {prev : Option Char} {c : Char} {rest : List Char}
    (h : tryFn prev (c :: rest) = none) :
    scanSubGo tryFn rep 0 prev (c :: rest) =
      c :: scanSubGo tryFn rep 0 (some c) rest := by
  simp only [scanSubGo, h]

theorem scanSubGo_skip (tryFn : Option Char → List Char → Option Nat) (rep : List Char) :
    ∀ (s : List Char) (n : Nat) (prev : Option Char),
      ∃ p, scanSubGo tryFn rep n prev s = scanSubGo tryFn rep 0 p (s.drop n) := by
  intro s
  induction s with
  | nil =>
      intro n prev
      refine ⟨prev, ?_⟩
      cases n <;> rfl
  | cons c rest ih =>
      intro n prev
      cases n with
      | zero => exact ⟨prev, rfl⟩
      | succ m =>
          obtain ⟨p, hp⟩ := ih m (some c)
          exact ⟨p, by rw [scanSubGo_succ]; exact hp⟩

theorem tryWord_some {key : List Char} {prev : Option Char} {s : List Char} {n : Nat}
    (h : tryWord key prev s = some n) :
    n = key.length ∧ s = key ++ s.drop key.length := by
  unfold tryWord at h
  split at h
  · next hcond =>
      refine ⟨(Option.some.injEq _ _).mp h.symm, ?_⟩
      have hpre : key.isPrefixOf s = true := by
        have := hcond.1
        simpa using this
      rw [List.isPrefixOf_iff_prefix] at hpre
      obtain ⟨t, ht⟩ := hpre
      have hdrop : s.drop key.length = t := by
        rw [← ht, List.drop_left]
      rw [hdrop, ht]
  · cases h

theorem interleave_nil (sep : List Char) : interleave sep [] = [] := rfl

theorem interleave_single (sep p : List Char) : interleave sep [p] = p := rfl

theorem interleave_cons (sep p : List Char) {ps : List (List Char)} (h : ps ≠ []) :
    interleave sep (p :: ps) = p ++ sep ++ interleave sep ps := by
  cases ps with
  | nil => exact absurd rfl h
  | cons q qs => rfl

/-- Every run of subWord decomposes the input into pieces separated by
the key, with the output the same pieces separated by the
replacement. -/
theorem subWord_decomp (key val : List Char) (hkey : key ≠ []) :
    ∀ (n : Nat) (s : List Char), s.length ≤ n → ∀ (prev : Option Char),
      ∃ ps : List (List Char), ps ≠ [] ∧ s = interleave key ps ∧
        scanSubGo (tryWord key) val 0 prev s = interleave val ps := by
  intro n
  induction n with
  | zero =>
      intro s hs prev
      have hnil : s = [] := List.length_eq_zero.mp (Nat.le_zero.mp hs)
      subst hnil
      exact ⟨[[]], by simp, rfl, rfl⟩
  | succ n ih =>
      intro s hs prev
      rcases s with _ | ⟨c, rest⟩
      · exact ⟨[[]], by simp, rfl, rfl⟩
      · cases htry : tryWord key prev (c :: rest) with
        | none =>
            obtain ⟨ps', hne, hsEq, hout⟩ :=
              ih rest (by simpa using Nat.le_of_succ_le_succ hs) (some c)
            rcases ps' with _ | ⟨p0, ps''⟩
            · exact absurd rfl hne
            refine ⟨(c :: p0) :: ps'', by simp, ?_, ?_⟩
            · rcases ps'' with _ | ⟨q, qs⟩
              · rw [interleave_single] at hsEq ⊢
                rw [hsEq]
              · rw [interleave_cons key p0 (by simp)] at hsEq
                rw [interleave_cons key (c :: p0) (by simp), hsEq]
                simp
            · rw [scanSubGo_zero_none htry, hout]
              rcases ps'' with _ | ⟨q, qs⟩
              · rw [interleave_single, interleave_single]
              · rw [interleave_cons val p0 (by simp), interleave_cons val (c :: p0) (by simp)]
                simp
        | some m =>
            obtain ⟨hm, hsplit⟩ := tryWord_some htry
            have hklen : 0 < key.length := List.length_pos.mpr hkey
            obtain ⟨p, hskip⟩ := scanSubGo_skip (tryWord key) val rest (m - 1) (some c)
            have hdropEq : rest.drop (m - 1) = (c :: rest).drop m := by
              subst hm
              rcases hk : key.length with _ | k
              · omega
              · rfl
            have hlen : ((c :: rest).drop key.length).length ≤ n := by
              have h1 : ((c :: rest).drop key.length).length =
                  (c :: rest).length - key.length := List.length_drop _ _
              have h2 : (c :: rest).length = rest.length + 1 := by simp
              have h3 : rest.length + 1 ≤ n + 1 := by simpa using hs
              omega
            obtain ⟨ps', hne, hsEq', hout'⟩ := ih ((c :: rest).drop key.length) hlen p
            refine ⟨[] :: ps', by simp, ?_, ?_⟩
            · rw [interleave_cons key [] hne]
              simp only [List.nil_append]
              rw [← hsEq', ← hsplit]
            · rw [scanSubGo_zero_some htry, interleave_cons val [] hne]
              simp only [List.nil_append]
              rw [hskip, hdropEq, hm, hout']

theorem subWord_decomp' (key val : List Char) (hkey : key ≠ []) (s : List Char) :
    ∃ ps : List (List Char), ps ≠ [] ∧ s = interleave key ps ∧
      subWord key val s = interleave val ps :=
  subWord_decomp key val hkey s.length s (le_refl _) none

/-! Pieces of a concatenation (claim C8). -/

theorem wsPiecesFrom_cons (c : Char) (s : List Char) (acc : List (List Char)) :
    wsPiecesFrom (c :: s) acc =
      if isWs c then [] :: wsPiecesFrom s acc
      else (c :: (wsPiecesFrom s acc).headD []) :: (wsPiecesFrom s acc).tail := rfl

theorem eq_dropLast_append_getLastD :
    ∀ (P : List (List Char)), P ≠ [] → P = P.dropLast ++ [P.getLastD []] := by
  intro P
  induction P with
  | nil => intro h; exact absurd rfl h
  | cons a P ih =>
      intro _
      cases P with
      | nil => rfl
      | cons b Q =>
          have h2 := ih (by simp)
          calc a :: b :: Q = a :: ((b :: Q).dropLast ++ [(b :: Q).getLastD []]) := by
                rw [← h2]
            _ = (a :: b :: Q).dropLast ++ [(a :: b :: Q).getLastD []] := rfl

theorem wsPiecesFrom_eq (x : List Char) (q : List Char) (qs : List (List Char)) :
    wsPiecesFrom x (q :: qs) =
      (wsPieces x).dropLast ++ ((wsPieces x).getLastD [] ++ q) :: qs := by
  induction x with
  | nil => rfl
  | cons c x ih =>
      rw [wsPiecesFrom_cons, wsPieces_cons]
      cases hc : isWs c
      · simp only [Bool.false_eq_true, if_false]
        rcases hP : wsPieces x with _ | ⟨p0, ps⟩
        · exact absurd hP (wsPieces_ne_nil x)
        · rw [ih, hP]
          rcases ps with _ | ⟨r, rs⟩
          · simp
          · simp
      · simp only [if_true]
        rw [ih]
        rcases hP : wsPieces x with _ | ⟨p0, ps⟩
        · exact absurd hP (wsPieces_ne_nil x)
        · simp
  

/-! Token correspondence through subWord and whitespace collapse
(claim C8). -/

theorem wsPieces_append (x y : List Char) :
    wsPieces (x ++ y) = (wsPieces x).dropLast ++
      ((wsPieces x).getLastD [] ++ (wsPieces y).headD []) :: (wsPieces y).tail := by
  have h0 : wsPieces (x ++ y) = wsPiecesFrom x (wsPieces y) := by
    show List.foldr _ [[]] (x ++ y) = _
    rw [List.foldr_append]
    rfl
  rcases hY : wsPieces y with _ | ⟨q, qs⟩
  · exact absurd hY (wsPieces_ne_nil y)
  · rw [h0, hY, wsPiecesFrom_eq]
    rfl

theorem wsPieces_all_nonws (v : List Char) (h : ∀ c ∈ v, isWs c = false) :
    wsPieces v = [v] := by
  induction v with
  | nil => rfl
  | cons c v ih =>
      rw [wsPieces_cons, h c (by simp)]
      simp only [Bool.false_eq_true, if_false]
      rw [ih (fun d hd => h d (by simp [hd]))]
      rfl

theorem mem_tail_append_cons {α : Type} (D : List α) (m : α) (T : List α) (t : α)
    (ht : t ∈ T) : t ∈ (D ++ m :: T).tail := by
  cases D with
  | nil => exact ht
  | cons d ds =>
      show t ∈ ds ++ m :: T
      exact List.mem_append.mpr (Or.inr (List.mem_cons.mpr (Or.inr ht)))

theorem headD_mem {α : Type} {l : List α} (h : l ≠ []) (d : α) : l.headD d ∈ l := by
  cases l with
  | nil => exact absurd rfl h
  | cons a as => exact List.mem_cons_self a as

/-- Piece correspondence of two interleavings of the same pieces: the
first piece is shared or contains the replacement, and every later
piece is a later piece of the other interleaving or contains the
replacement. -/
theorem interleave_pieces (val key : List Char) (hval : ∀ c ∈ val, isWs c = false) :
    ∀ ps : List (List Char), ps ≠ [] →
      ((wsPieces (interleave val ps)).headD [] =
          (wsPieces (interleave key ps)).headD [] ∨
        ∃ a b, (wsPieces (interleave val ps)).headD [] = a ++ (val ++ b)) ∧
      (∀ t ∈ (wsPieces (interleave val ps)).tail,
        t ∈ (wsPieces (interleave key ps)).tail ∨ ∃ a b, t = a ++ (val ++ b)) := by
  intro ps
  induction ps with
  | nil => intro h; exact absurd rfl h
  | cons p rest ih =>
      intro _
      rcases rest with _ | ⟨p2, rest'⟩
      · rw [interleave_single, interleave_single]
        exact ⟨Or.inl rfl, fun t ht => Or.inl ht⟩
      · have hne : (p2 :: rest') ≠ [] := by simp
        obtain ⟨ihHead, ihTail⟩ := ih hne
        rw [interleave_cons val p hne, interleave_cons key p hne,
          List.append_assoc, List.append_assoc]
        rw [wsPieces_append p (val ++ interleave val (p2 :: rest')),
          wsPieces_append p (key ++ interleave key (p2 :: rest'))]
        have hvo : wsPieces (val ++ interleave val (p2 :: rest')) =
            (val ++ (wsPieces (interleave val (p2 :: rest'))).headD []) ::
              (wsPieces (interleave val (p2 :: rest'))).tail := by
          rw [wsPieces_append val (interleave val (p2 :: rest')),
            wsPieces_all_nonws val hval]
          rfl
        rw [hvo]
        simp only [List.headD_cons, List.tail_cons]
        constructor
        · rcases hD : (wsPieces p).dropLast with _ | ⟨d, ds⟩
          · refine Or.inr ⟨(wsPieces p).getLastD [],
              (wsPieces (interleave val (p2 :: rest'))).headD [], ?_⟩
            simp
          · left
            simp
        · intro t ht
          have hmemIn : ∀ u, u ∈ (wsPieces (interleave key (p2 :: rest'))).tail →
              u ∈ ((wsPieces p).dropLast ++
                ((wsPieces p).getLastD [] ++
                  (wsPieces (key ++ interleave key (p2 :: rest'))).headD []) ::
                  (wsPieces (key ++ interleave key (p2 :: rest'))).tail).tail := by
            intro u hu
            apply mem_tail_append_cons
            rw [wsPieces_append key (interleave key (p2 :: rest'))]
            apply mem_tail_append_cons
            exact hu
          rcases hD : (wsPieces p).dropLast with _ | ⟨d, ds⟩
          · rw [hD] at hmemIn ht
            simp only [List.nil_append, List.tail_cons] at ht
            rcases ihTail t ht with hmem | hvalin
            · exact Or.inl (hmemIn t hmem)
            · exact Or.inr hvalin
          · rw [hD] at hmemIn ht
            simp only [List.cons_append, List.tail_cons] at ht
            rcases List.mem_append.mp ht with hds | hrest
            · left
              show t ∈ ds ++ _
              exact List.mem_append.mpr (Or.inl hds)
            · rcases List.mem_cons.mp hrest with he | htl
              · exact Or.inr ⟨(wsPieces p).getLastD [],
                  (wsPieces (interleave val (p2 :: rest'))).headD [], by rw [he]⟩
              · rcases ihTail t htl with hmem | hvalin
                · exact Or.inl (hmemIn t hmem)
                · exact Or.inr hvalin

/-- Every token of the output of subWord either contains the
replacement as a contiguous segment or is a token of the input. -/
theorem subWord_tokens (key val : List Char) (hkey : key ≠ [])
    (hval : ∀ c ∈ val, isWs c = false) (s : List Char) :
    ∀ t ∈ splitWs (subWord key val s),
      (∃ a b, t = a ++ (val ++ b)) ∨ t ∈ splitWs s := by
  obtain ⟨ps, hne, hsEq, hout⟩ := subWord_decomp' key val hkey s
  intro t ht
  rw [hout] at ht
  have htmem : t ∈ wsPieces (interleave val ps) := List.mem_of_mem_filter ht
  have htne : t ≠ [] := splitWs_mem_ne_nil ht
  obtain ⟨hhead, htail⟩ := interleave_pieces val key hval ps hne
  have hmem_split : ∀ u, u ∈ wsPieces (interleave key ps) → u ≠ [] → u ∈ splitWs s := by
    intro u hu hune
    rw [hsEq]
    unfold splitWs
    exact List.mem_filter.mpr ⟨hu, by simpa using hune⟩
  rcases hPO : wsPieces (interleave val ps) with _ | ⟨h0, t0⟩
  · exact absurd hPO (wsPieces_ne_nil _)
  · rw [hPO] at htmem
    rcases List.mem_cons.mp htmem with he | htl
    · subst he
      rcases hhead with heq | hvalin
      · right
        rw [hPO] at heq
        simp only [List.headD_cons] at heq
        rw [heq]
        exact hmem_split _ (headD_mem (wsPieces_ne_nil _) [])
          (by rw [← heq]; exact htne)
      · left
        rw [hPO] at hvalin
        simpa using hvalin
    · have := htail t (by rw [hPO]; simpa using htl)
      rcases this with hmem | hvalin
      · right
        exact hmem_split t (List.mem_of_mem_tail hmem) htne
      · exact Or.inr hvalin |>.symm.elim (fun h => Or.inl h) (fun h => Or.inr h)

theorem containsSub_iff (needle hay : List Char) :
    containsSub needle hay = true ↔ ∃ a b, hay = a ++ (needle ++ b) := by
  unfold containsSub
  rw [List.any_eq_true]
  constructor
  · rintro ⟨i, _, h⟩
    have h' := of_decide_eq_true h
    refine ⟨hay.take i, hay.drop (i + needle.length), ?_⟩
    calc hay = hay.take i ++ hay.drop i := (List.take_append_drop i hay).symm
      _ = hay.take i ++ ((hay.drop i).take needle.length ++
            (hay.drop i).drop needle.length) := by
            rw [List.take_append_drop needle.length (hay.drop i)]
      _ = hay.take i ++ (needle ++ hay.drop (i + needle.length)) := by
            rw [h', List.drop_drop]
  · rintro ⟨a, b, rfl⟩
    refine ⟨a.length, ?_, ?_⟩
    · rw [List.mem_range]
      have := List.length_append a (needle ++ b)
      omega
    · apply decide_eq_true
      rw [List.drop_left, List.take_left]

/-- Goodness of tokens (not a stopword, not purely numeric) is
preserved by a word substitution whose replacement is whitespace-free,
contains a non-digit, and is not a segment of any stopword. -/
theorem subWord_good (key val : List Char) (hkey : key ≠ [])
    (hval1 : ∀ c ∈ val, isWs c = false)
    (hval2 : ∃ c ∈ val, c.isDigit = false)
    (hval3 : ∀ w ∈ STOP_TOKENS, containsSub val w = false)
    (s : List Char)
    (hs : ∀ t ∈ splitWs s, STOP_TOKENS.contains t = false ∧ allDigits t = false) :
    ∀ t ∈ splitWs (subWord key val s),
      STOP_TOKENS.contains t = false ∧ allDigits t = false := by
  intro t ht
  rcases subWord_tokens key val hkey hval1 s t ht with ⟨a, b, rfl⟩ | hmem
  · constructor
    · cases hcon : STOP_TOKENS.contains (a ++ (val ++ b))
      · rfl
      · exfalso
        have hw : (a ++ (val ++ b)) ∈ STOP_TOKENS := List.elem_iff.mp hcon
        have h1 := hval3 _ hw
        have h2 : containsSub val (a ++ (val ++ b)) = true :=
          (containsSub_iff val _).mpr ⟨a, b, rfl⟩
        rw [h1] at h2
        cases h2
    · cases hall : allDigits (a ++ (val ++ b))
      · rfl
      · exfalso
        obtain ⟨c, hcval, hcd⟩ := hval2
        unfold allDigits at hall
        have h2 := (Bool.and_eq_true _ _).mp hall
        have h3 := List.all_eq_true.mp h2.2 c
          (List.mem_append.mpr (Or.inr (List.mem_append.mpr (Or.inl hcval))))
        rw [hcd] at h3
        cases h3
  · exact hs t hmem

/-! Whitespace collapse preserves tokens (claim C8). -/

theorem scanSubGo_prev_irrel {tryFn : Option Char → List Char → Option Nat}
    (h : ∀ p1 p2 s, tryFn p1 s = tryFn p2 s) (rep : List Char) :
    ∀ (s : List Char) (n : Nat) (p1 p2 : Option Char),
      scanSubGo tryFn rep n p1 s = scanSubGo tryFn rep n p2 s := by
  intro s
  induction s with
  | nil => intro n p1 p2; rw [scanSubGo_nil, scanSubGo_nil]
  | cons c rest ih =>
      intro n p1 p2
      cases n with
      | succ k => rw [scanSubGo_succ, scanSubGo_succ]
      | zero =>
          cases htry : tryFn p2 (c :: rest) with
          | some m =>
              rw [scanSubGo_zero_some ((h p1 p2 _).trans htry), scanSubGo_zero_some htry]
          | none =>
              rw [scanSubGo_zero_none ((h p1 p2 _).trans htry), scanSubGo_zero_none htry]

theorem tryWsRun_prev (p1 p2 : Option Char) (s : List Char) :
    tryWsRun p1 s = tryWsRun p2 s := by
  cases s <;> rfl

theorem drop_takeWhile_length (p : Char → Bool) (r : List Char) :
    r.drop (r.takeWhile p).length = r.dropWhile p := by
  induction r with
  | nil => rfl
  | cons c r ih =>
      rw [List.takeWhile_cons, List.dropWhile_cons]
      cases hc : p c
      · simp only [Bool.false_eq_true, if_false]
        rfl
      · simp only [if_true, List.length_cons, List.drop_succ_cons]
        exact ih

theorem wsCollapse_nil : wsCollapse [] = [] := rfl

theorem wsCollapse_cons_nonws {c : Char} (r : List Char) (h : isWs c = false) :
    wsCollapse (c :: r) = c :: wsCollapse r := by
  unfold wsCollapse scanSub
  have htry : tryWsRun none (c :: r) = none := by
    simp [tryWsRun, h]
  rw [scanSubGo_zero_none htry]
  congr 1
  exact scanSubGo_prev_irrel tryWsRun_prev [' '] r 0 (some c) none

theorem wsCollapse_cons_ws {c : Char} (r : List Char) (h : isWs c = true) :
    wsCollapse (c :: r) = ' ' :: wsCollapse (r.dropWhile isWs) := by
  unfold wsCollapse scanSub
  have htry : tryWsRun none (c :: r) = some (1 + (r.takeWhile isWs).length) := by
    simp [tryWsRun, h]
  rw [scanSubGo_zero_some htry]
  obtain ⟨p, hp⟩ := scanSubGo_skip tryWsRun [' ']
    r (1 + (r.takeWhile isWs).length - 1) (some c)
  rw [hp]
  have hone : 1 + (r.takeWhile isWs).length - 1 = (r.takeWhile isWs).length := by omega
  rw [hone, drop_takeWhile_length]
  show ' ' :: _ = ' ' :: _
  congr 1
  exact scanSubGo_prev_irrel tryWsRun_prev [' '] (r.dropWhile isWs) 0 p none

theorem wsCollapse_append_nonws (a r : List Char) (h : ∀ c ∈ a, isWs c = false) :
    wsCollapse (a ++ r) = a ++ wsCollapse r := by
  induction a with
  | nil => rfl
  | cons c a ih =>
      rw [List.cons_append, wsCollapse_cons_nonws _ (h c (by simp)),
        ih (fun d hd => h d (by simp [hd]))]
      rfl

theorem splitWs_wsCollapse :
    ∀ (n : Nat) (s : List Char), s.length ≤ n →
      splitWs (wsCollapse s) = splitWs s := by
  intro n
  induction n with
  | zero =>
      intro s hs
      have : s = [] := List.length_eq_zero.mp (Nat.le_zero.mp hs)
      subst this
      rfl
  | succ n ih =>
      intro s hs
      rcases s with _ | ⟨c, r⟩
      · rfl
      · cases hc : isWs c
        · set tok := c :: r.takeWhile (fun c => !(isWs c)) with htokdef
          set rr := r.dropWhile (fun c => !(isWs c)) with hrrdef
          have hsplitr : c :: r = tok ++ rr := by
            rw [htokdef, List.cons_append]
            congr 1
            exact (List.takeWhile_append_dropWhile _ _).symm
          have htokne : tok ≠ [] := by simp [htokdef]
          have htokws : ∀ d ∈ tok, isWs d = false := by
            intro d hd
            rcases List.mem_cons.mp hd with he | hm
            · subst he; exact hc
            · have := List.mem_takeWhile_imp hm
              simpa using this
          have hrr : rr = [] ∨ ∃ d zs, rr = d :: zs ∧ isWs d = true := by
            rcases hr2 : rr with _ | ⟨d, zs⟩
            · exact Or.inl rfl
            · refine Or.inr ⟨d, zs, rfl, ?_⟩
              have := dropWhile_head_false r (by rw [← hrrdef]; exact hr2)
              simpa using this
          have hcrr : wsCollapse rr = [] ∨
              ∃ d zs, wsCollapse rr = d :: zs ∧ isWs d = true := by
            rcases hrr with hre | ⟨d, zs, hre, hd⟩
            · rw [hre]; exact Or.inl rfl
            · rw [hre, wsCollapse_cons_ws zs hd]
              exact Or.inr ⟨' ', wsCollapse (zs.dropWhile isWs), rfl, by decide⟩
          have hrrlen : rr.length ≤ n := by
            have h1 : rr.length ≤ r.length := by
              rw [hrrdef]
              exact (List.dropWhile_sublist _).length_le
            have h2 : r.length + 1 ≤ n + 1 := by simpa using hs
            omega
          rw [hsplitr, wsCollapse_append_nonws tok rr htokws,
            splitWs_token_head tok (wsCollapse rr) htokne htokws hcrr,
            splitWs_token_head tok rr htokne htokws hrr,
            ih rr hrrlen]
        · rw [wsCollapse_cons_ws r hc, splitWs_cons_ws _ (by decide : isWs ' ' = true),
            splitWs_cons_ws r hc]
          have hlen : (r.dropWhile isWs).length ≤ n := by
            have h1 : (r.dropWhile isWs).length ≤ r.length :=
              (List.dropWhile_sublist _).length_le
            have h2 : r.length + 1 ≤ n + 1 := by simpa using hs
            omega
          rw [ih (r.dropWhile isWs) hlen, splitWs_dropWhile_ws]

/-! Assembly of the token-goodness invariant (claim C8). -/

theorem strToL_mk (l : List Char) : strToL (String.mk l) = l := rfl

theorem splitWs_joinSpace :
    ∀ (ts : List (List Char)), (∀ t ∈ ts, t ≠ []) →
      (∀ t ∈ ts, ∀ c ∈ t, isWs c = false) → splitWs (joinSpace ts) = ts := by
  intro ts
  induction ts with
  | nil => intro _ _; rfl
  | cons t rest ih =>
      intro h1 h2
      rcases rest with _ | ⟨t2, rest'⟩
      · show splitWs t = [t]
        have := splitWs_token_head t [] (h1 t (by simp))
          (fun c hc => h2 t (by simp) c hc) (Or.inl rfl)
        simpa using this
      · show splitWs (t ++ ' ' :: joinSpace (t2 :: rest')) = _
        rw [splitWs_token_head t (' ' :: joinSpace (t2 :: rest')) (h1 t (by simp))
          (fun c hc => h2 t (by simp) c hc) (Or.inr ⟨' ', _, rfl, by decide⟩)]
        rw [splitWs_cons_ws _ (by decide : isWs ' ' = true)]
        rw [ih (fun u hu => h1 u (by simp [hu])) (fun u hu => h2 u (by simp [hu]))]

theorem foldl_subWord_good :
    ∀ (kvs : List (String × String)) (s : List Char),
      (∀ kv ∈ kvs, strToL kv.1 ≠ [] ∧ (∀ c ∈ strToL kv.2, isWs c = false) ∧
        (∃ c ∈ strToL kv.2, c.isDigit = false) ∧
        (∀ w ∈ STOP_TOKENS, containsSub (strToL kv.2) w = false)) →
      (∀ t ∈ splitWs s, STOP_TOKENS.contains t = false ∧ allDigits t = false) →
      ∀ t ∈ splitWs
          (kvs.foldl (fun acc kv => subWord (strToL kv.1) (strToL kv.2) acc) s),
        STOP_TOKENS.contains t = false ∧ allDigits t = false := by
  intro kvs
  induction kvs with
  | nil => intro s _ hs; exact hs
  | cons kv rest ih =>
      intro s hconds hs
      rw [List.foldl_cons]
      obtain ⟨hk, hv1, hv2, hv3⟩ := hconds kv (by simp)
      exact ih _ (fun kv2 h2 => hconds kv2 (by simp [h2]))
        (subWord_good _ _ hk hv1 hv2 hv3 s hs)

/-- Tokens of the post-filter normalisation pipeline (join, synonyms,
value-of contraction, whitespace collapse and trim) are neither
stopwords nor purely numeric. -/
theorem pipeline_tokens_good (N : List Char) :
    ∀ t ∈ splitWs (trimWs (wsCollapse (subWord (strToL "value of") (strToL "value")
        (apply_synonyms (joinSpace ((splitWs N).filter
          (fun t => ¬ STOP_TOKENS.contains t ∧ ¬ allDigits t))))))),
      STOP_TOKENS.contains t = false ∧ allDigits t = false := by
  intro t ht
  set tokens := (splitWs N).filter
    (fun t => ¬ STOP_TOKENS.contains t ∧ ¬ allDigits t) with htoks
  have htok_ne : ∀ u ∈ tokens, u ≠ [] := fun u hu =>
    splitWs_mem_ne_nil (List.mem_of_mem_filter hu)
  have htok_ws : ∀ u ∈ tokens, ∀ c ∈ u, isWs c = false := fun u hu =>
    splitWs_mem_nonws (List.mem_of_mem_filter hu)
  have htok_good : ∀ u ∈ tokens,
      STOP_TOKENS.contains u = false ∧ allDigits u = false := by
    intro u hu
    have hp := List.of_mem_filter hu
    have hp' := of_decide_eq_true hp
    exact ⟨(Bool.not_eq_true _).mp hp'.1, (Bool.not_eq_true _).mp hp'.2⟩
  have hgood1 : ∀ u ∈ splitWs (joinSpace tokens),
      STOP_TOKENS.contains u = false ∧ allDigits u = false := by
    rw [splitWs_joinSpace tokens htok_ne htok_ws]
    exact htok_good
  have hsyn : ∀ u ∈ splitWs (apply_synonyms (joinSpace tokens)),
      STOP_TOKENS.contains u = false ∧ allDigits u = false := by
    intro u hu
    unfold apply_synonyms at hu
    rw [splitWs_trimWs] at hu
    rw [splitWs_wsCollapse (SYNONYMS.foldl
      (fun acc kv => subWord (strToL kv.1) (strToL kv.2) acc) (joinSpace tokens)).length
      _ (le_refl _)] at hu
    exact foldl_subWord_good SYNONYMS (joinSpace tokens) (by decide) hgood1 u hu
  have hvo : ∀ u ∈ splitWs (subWord (strToL "value of") (strToL "value")
      (apply_synonyms (joinSpace tokens))),
      STOP_TOKENS.contains u = false ∧ allDigits u = false :=
    subWord_good _ _ (by decide) (by decide) (by decide) (by decide) _ hsyn
  rw [splitWs_trimWs] at ht
  rw [splitWs_wsCollapse (subWord (strToL "value of") (strToL "value")
      (apply_synonyms (joinSpace tokens))).length _ (le_refl _)] at ht
  exact hvo t ht

/-! All-missing columns survive dtype coercion and transforms
(claim C4). -/

theorem reduceOption_replicate_none (n : Nat) :
    (List.replicate n (none : Option Rat)).reduceOption = [] := by
  induction n with
  | zero => rfl
  | succ n ih => simpa [List.replicate_succ, List.reduceOption_cons_of_none] using ih

theorem map_replicate_na {β : Type} (f : Val → β) (n : Nat) :
    (List.replicate n Val.na).map f = List.replicate n (f Val.na) :=
  List.map_replicate

theorem maskCode_replicate_na (code : Val) (n : Nat) :
    maskCode code (List.replicate n Val.na) = List.replicate n Val.na := by
  simp [maskCode, List.map_replicate]

theorem foldl_maskCode_replicate_na (codes : List Val) (n : Nat) :
    codes.foldl (fun c code => maskCode code c) (List.replicate n Val.na) =
      List.replicate n Val.na := by
  induction codes with
  | nil => rfl
  | cons v vs ih => rw [List.foldl_cons, maskCode_replicate_na]; exact ih

theorem applyOp_replicate_na (canonical : String) (op : TransformOperation) (n : Nat) :
    (applyOp canonical (List.replicate n Val.na) op).1 = List.replicate n Val.na := by
  simp only [applyOp]
  by_cases h1 : op.name = "na_codes"
  · rw [if_pos h1]
    exact foldl_maskCode_replicate_na _ n
  · rw [if_neg h1]
    by_cases h2 : op.name = "strip"
    · rw [if_pos h2]
      exact map_replicate_na _ n
    · rw [if_neg h2]
      by_cases h3 : op.name = "lower"
      · rw [if_pos h3]
        exact map_replicate_na _ n
      · rw [if_neg h3]
        by_cases h4 : op.name = "upper"
        · rw [if_pos h4]
          exact map_replicate_na _ n
        · rw [if_neg h4]
          by_cases h5 : op.name = "na_blank_to_nan"
          · rw [if_pos h5]
            show ((List.replicate n Val.na).map _).map _ = _
            rw [List.map_replicate, List.map_replicate]
            rfl
          · rw [if_neg h5]
            by_cases h6 : op.name = "clip"
            · rw [if_pos h6]
              rcases hp : op.params with _ | p
              · rfl
              · rcases p with vs | ⟨lo, hi⟩ | q
                · rfl
                · show (List.replicate n Val.na).map _ = _
                  rw [List.map_replicate]
                  rfl
                · rfl
            · rw [if_neg h6]
              by_cases h7 : op.name = "winsor"
              · rw [if_pos h7]
                rcases hp : op.params with _ | p
                · rfl
                · rcases p with vs | ⟨lo, hi⟩ | q
                  · rfl
                  · rfl
                  · show ((List.replicate n Val.na).map toNumeric).map _ = _
                    rw [List.map_replicate, List.map_replicate]
                    rfl
              · rw [if_neg h7]
                by_cases h8 : op.name = "to_int"
                · rw [if_pos h8]
                  exact map_replicate_na _ n
                · rw [if_neg h8]
                  by_cases h9 : op.name = "to_float"
                  · rw [if_pos h9]
                    exact map_replicate_na _ n
                  · rw [if_neg h9]

theorem apply_transforms_replicate_na (meta : CanonicalMeta)
    (options : ExtractionOptions) (n : Nat) :
    (apply_transforms (List.replicate n Val.na) meta options).1 =
      List.replicate n Val.na := by
  simp only [apply_transforms]
  split
  · rfl
  · have key : ∀ (ops : List TransformOperation) (msgs : List (String × String)),
        (ops.foldl (fun acc op =>
          ((applyOp meta.canonical acc.1 op).1, acc.2 ++ (applyOp meta.canonical acc.1 op).2))
          (List.replicate n Val.na, msgs)).1 = List.replicate n Val.na := by
      intro ops
      induction ops with
      | nil => intro msgs; rfl
      | cons op rest ih =>
          intro msgs
          rw [List.foldl_cons]
          have h1 := applyOp_replicate_na meta.canonical op n
          rw [h1]
          exact ih _
    exact key meta.transform.operations []

theorem apply_dtype_replicate_na (meta : CanonicalMeta)
    (options : ExtractionOptions) (n : Nat) :
    ∃ msgs, apply_dtype (List.replicate n Val.na) meta options =
      Except.ok (List.replicate n Val.na, msgs) := by
  simp only [apply_dtype]
  split
  · exact ⟨[], rfl⟩
  · split
    · exact ⟨_, rfl⟩
    · split
      · refine ⟨[], ?_⟩
        rw [show (List.replicate n Val.na).map toNumeric =
          List.replicate n (none : Option Rat) from List.map_replicate,
          reduceOption_replicate_none]
        simp [List.map_replicate]
      · split
        · refine ⟨[], ?_⟩
          rw [List.map_replicate]
          rfl
        · split
          · refine ⟨[], ?_⟩
            rw [List.map_replicate]
            rfl
          · exact ⟨[], rfl⟩

/-! Lemmas for the AGE override (claim C6). -/

theorem ws_toLower {c : Char} (h : isWs c = true) : Char.toLower c = c := by
  simp only [isWs, Bool.or_eq_true, decide_eq_true_eq] at h
  rcases h with ((((h | h) | h) | h) | h) | h <;> (subst h; decide)

theorem trimWs_eq_nil_iff (l : List Char) :
    trimWs l = [] ↔ ∀ c ∈ l, isWs c = true := by
  unfold trimWs
  constructor
  · intro h c hc
    rw [List.reverse_eq_nil_iff, List.dropWhile_eq_nil_iff] at h
    have hsplit := List.takeWhile_append_dropWhile isWs l
    rw [← hsplit] at hc
    rcases List.mem_append.mp hc with hc | hc
    · exact List.mem_takeWhile_imp hc
    · exact h c (List.mem_reverse.mpr hc)
  · intro h
    have h1 : l.dropWhile isWs = [] :=
      List.dropWhile_eq_nil_iff.mpr (fun c hc => h c hc)
    simp [h1]

theorem occursWordAt_head_mem {s : List Char} {c : Char} {w : List Char} {i : Nat}
    (h : occursWordAt s (c :: w) i = true) : c ∈ s := by
  have h' := of_decide_eq_true h
  have htake := h'.1
  have hc : c ∈ (s.drop i).take (c :: w).length := by
    rw [htake]
    exact List.mem_cons_self c w
  exact List.mem_of_mem_drop (List.mem_of_mem_take hc)

theorem matchGap_words {xs ys : List (List Char)} {s : List Char}
    (h : matchGap xs ys s = true) :
    ∃ x ∈ xs, ∃ i, occursWordAt s x i = true := by
  unfold matchGap at h
  rw [List.any_eq_true] at h
  obtain ⟨x, hx, h⟩ := h
  rw [List.any_eq_true] at h
  obtain ⟨y, _, h⟩ := h
  rw [List.any_eq_true] at h
  obtain ⟨i, _, h⟩ := h
  exact ⟨x, hx, i, (of_decide_eq_true h).1⟩

theorem matchPhrase_words {ps : List (List Char)} {s : List Char}
    (h : matchPhrase ps s = true) :
    ∃ x ∈ ps, ∃ i, occursWordAt s x i = true := by
  unfold matchPhrase at h
  rw [List.any_eq_true] at h
  obtain ⟨x, hx, h⟩ := h
  rw [List.any_eq_true] at h
  obtain ⟨i, _, h⟩ := h
  exact ⟨x, hx, i, h⟩

theorem exists_nonws_of_words {s : List Char} {alts : List (List Char)}
    (halts : ∀ x ∈ alts, x ≠ [] ∧ isWs (x.headD ' ') = false)
    (h : ∃ x ∈ alts, ∃ i, occursWordAt s x i = true) :
    ∃ c ∈ s, isWs c = false := by
  obtain ⟨x, hx, i, hocc⟩ := h
  obtain ⟨hne, hhead⟩ := halts x hx
  cases x with
  | nil => exact absurd rfl hne
  | cons c w =>
      refine ⟨c, occursWordAt_head_mem hocc, ?_⟩
      simpa using hhead

theorem exists_nonws_of_isMatchAgeHead {l : List Char}
    (h : isMatchAgeHead (lowerList l) = true) :
    ∃ d ∈ l, isWs d = false := by
  have hw : ∃ c ∈ lowerList (lowerList l), isWs c = false := by
    simp only [isMatchAgeHead, Bool.or_eq_true] at h
    rcases h with (h | h) | h
    · exact exists_nonws_of_words (by decide) (matchGap_words h)
    · exact exists_nonws_of_words (by decide) (matchGap_words h)
    · exact exists_nonws_of_words (by decide) (matchPhrase_words h)
  obtain ⟨c, hc, hcf⟩ := hw
  simp only [lowerList, List.map_map, List.mem_map] at hc
  obtain ⟨d, hd, hdc⟩ := hc
  refine ⟨d, hd, ?_⟩
  by_contra hdt
  have hdw : isWs d = true := by
    cases hx : isWs d
    · exact absurd hx hdt
    · rfl
  have h1 : Char.toLower d = d := ws_toLower hdw
  have : c = d := by
    simp only [Function.comp] at hdc
    rw [h1, h1] at hdc
    exact hdc.symm
  rw [this, hdw] at hcf
  cases hcf

theorem exists_nonws_of_isMatchAgeSpouse {l : List Char}
    (h : isMatchAgeSpouse (lowerList l) = true) :
    ∃ d ∈ l, isWs d = false := by
  have hw : ∃ c ∈ lowerList (lowerList l), isWs c = false := by
    simp only [isMatchAgeSpouse, Bool.or_eq_true] at h
    rcases h with (h | h) | h
    · exact exists_nonws_of_words (by decide) (matchGap_words h)
    · exact exists_nonws_of_words (by decide) (matchGap_words h)
    · exact exists_nonws_of_words (by decide) (matchPhrase_words h)
  obtain ⟨c, hc, hcf⟩ := hw
  simp only [lowerList, List.map_map, List.mem_map] at hc
  obtain ⟨d, hd, hdc⟩ := hc
  refine ⟨d, hd, ?_⟩
  by_contra hdt
  have hdw : isWs d = true := by
    cases hx : isWs d
    · exact absurd hx hdt
    · rfl
  have h1 : Char.toLower d = d := ws_toLower hdw
  have : c = d := by
    simp only [Function.comp] at hdc
    rw [h1, h1] at hdc
    exact hdc.symm
  rw [this, hdw] at hcf
  cases hcf

/-- C6 counterexample: the label AGE OF HEAD AND WIFE matches the
age-spouse patterns, yet label_to_concept resolves it to age_head (the
head patterns are tested first), so a spouse-pattern match does not
always resolve to age_spouse. -/
theorem c6_counterexample :
    isMatchAgeSpouse (lowerList (strToL "AGE OF HEAD AND WIFE")) = true ∧
    label_to_concept "AGE OF HEAD AND WIFE" = "demographics :: age_head" ∧
    "demographics :: age_head" ≠ "demographics :: age_spouse" := by
  refine ⟨by decide, by decide, by decide⟩

/-- C6 amended: the override runs on the original lower-cased label; a
label matching the age-head patterns resolves to age_head, a label
matching the age-spouse patterns and not the head patterns resolves to
age_spouse (head patterns take precedence when both match); the three
cited example labels resolve accordingly, and no label resolves to
both concepts. -/
theorem c6_age_override (label : String) :
    (isMatchAgeHead (lowerList label.toList) = true →
      label_to_concept label = "demographics :: age_head") ∧
    (isMatchAgeHead (lowerList label.toList) = false →
      isMatchAgeSpouse (lowerList label.toList) = true →
      label_to_concept label = "demographics :: age_spouse") ∧
    label_to_concept "AGE OF HEAD 1999" = "demographics :: age_head" ∧
    label_to_concept "REFERENCE PERSON AGE" = "demographics :: age_head" ∧
    label_to_concept "SPOUSE AGE" = "demographics :: age_spouse" ∧
    ¬ (label_to_concept label = "demographics :: age_head" ∧
       label_to_concept label = "demographics :: age_spouse") := by
  refine ⟨?_, ?_, by decide, by decide, by decide, ?_⟩
  · intro h
    have hne : trimWs label.toList ≠ [] := by
      intro h0
      obtain ⟨d, hd, hdf⟩ := exists_nonws_of_isMatchAgeHead h
      have := (trimWs_eq_nil_iff label.toList).mp h0 d hd
      rw [hdf] at this
      cases this
    simp only [label_to_concept, if_neg hne]
    rw [if_pos h]
  · intro h1 h2
    have hne : trimWs label.toList ≠ [] := by
      intro h0
      obtain ⟨d, hd, hdf⟩ := exists_nonws_of_isMatchAgeSpouse h2
      have := (trimWs_eq_nil_iff label.toList).mp h0 d hd
      rw [hdf] at this
      cases this
    have h1' : isMatchAgeHead (lowerList label.data) = false := h1
    simp only [label_to_concept, if_neg hne]
    rw [if_neg (by simp [h1']), if_pos h2]
  · rintro ⟨h1, h2⟩
    exact absurd (h1.symm.trans h2) (by decide)

/-- C6 witness: the amended theorem applied at the concrete label
SPOUSE AGE, discharging both pattern hypotheses. -/
theorem c6_age_override_witness :
    label_to_concept "SPOUSE AGE" = "demographics :: age_spouse" :=
  ((c6_age_override "SPOUSE AGE").2.1) (by decide) (by decide)

/-! Lemmas for the deterministic tie-break (claim C1). -/

theorem rowLe_antisymm_var {prefer : String} {freq : String → Nat} {a b : GridRow}
    (h1 : rowLe prefer freq a b) (h2 : rowLe prefer freq b a) :
    a.var_code = b.var_code := by
  have hk : rowSortKey prefer freq a = rowSortKey prefer freq b := le_antisymm h1 h2
  unfold rowSortKey at hk
  simp only [toLex_inj, Prod.mk.injEq] at hk
  exact hk.2.2.2.2.2

/-- C1: tie-break selection is order-independent: permuting the
mapping rows before scoring leaves the winning var_code of every
(concept, year) cell unchanged, because scores depend only on the row,
the preferred module and the global frequency table (itself invariant
under permutation), and the remaining comparator is a total order
whose final component is the var_code. -/
theorem c1_tie_break_order_independent (rows1 rows2 : List GridRow)
    (hperm : rows1.Perm rows2) (prefer : String) (c y : String) :
    pickedFor rows1 prefer c y = pickedFor rows2 prefer c y := by
  have hfreq : code_freq_of rows1 = code_freq_of rows2 := by
    funext v
    exact (hperm.map (fun r => r.var_code)).count_eq v
  simp only [pickedFor]
  rw [hfreq]
  have hg : (rows1.filter (fun r => r.concept = c ∧ r.year = y)).Perm
      (rows2.filter (fun r => r.concept = c ∧ r.year = y)) := hperm.filter _
  set freq := code_freq_of rows2 with hfreqdef
  haveI : IsTotal GridRow (rowLe prefer freq) :=
    ⟨fun a b => le_total (rowSortKey prefer freq a) (rowSortKey prefer freq b)⟩
  haveI : IsTrans GridRow (rowLe prefer freq) :=
    ⟨fun a b d hab hbd => le_trans hab hbd⟩
  have hperm2 : (List.insertionSort (rowLe prefer freq)
        (rows1.filter (fun r => r.concept = c ∧ r.year = y))).Perm
      (List.insertionSort (rowLe prefer freq)
        (rows2.filter (fun r => r.concept = c ∧ r.year = y))) :=
    ((List.perm_insertionSort _ _).trans hg).trans (List.perm_insertionSort _ _).symm
  have hs1 := List.sorted_insertionSort (rowLe prefer freq)
    (rows1.filter (fun r => r.concept = c ∧ r.year = y))
  have hs2 := List.sorted_insertionSort (rowLe prefer freq)
    (rows2.filter (fun r => r.concept = c ∧ r.year = y))
  cases hL1 : List.insertionSort (rowLe prefer freq)
      (rows1.filter (fun r => r.concept = c ∧ r.year = y)) with
  | nil =>
      cases hL2 : List.insertionSort (rowLe prefer freq)
          (rows2.filter (fun r => r.concept = c ∧ r.year = y)) with
      | nil => rfl
      | cons h2 t2 =>
          rw [hL1, hL2] at hperm2
          exact absurd hperm2.symm (List.cons_ne_nil h2 t2 ∘ List.Perm.eq_nil)
  | cons h1 t1 =>
      cases hL2 : List.insertionSort (rowLe prefer freq)
          (rows2.filter (fun r => r.concept = c ∧ r.year = y)) with
      | nil =>
          rw [hL1, hL2] at hperm2
          exact absurd hperm2 (List.cons_ne_nil h1 t1 ∘ List.Perm.eq_nil)
      | cons h2 t2 =>
          rw [hL1, hL2] at hperm2
          rw [hL1] at hs1
          rw [hL2] at hs2
          have hm2 : h2 ∈ h1 :: t1 := hperm2.symm.subset (List.mem_cons_self h2 t2)
          have hm1 : h1 ∈ h2 :: t2 := hperm2.subset (List.mem_cons_self h1 t1)
          have h12 : rowLe prefer freq h1 h2 := by
            rcases List.mem_cons.mp hm2 with he | ht
            · rw [he]
              exact le_refl (rowSortKey prefer freq h1)
            · exact List.rel_of_sorted_cons hs1 _ ht
          have h21 : rowLe prefer freq h2 h1 := by
            rcases List.mem_cons.mp hm1 with he | ht
            · rw [he]
              exact le_refl (rowSortKey prefer freq h2)
            · exact List.rel_of_sorted_cons hs2 _ ht
          simp [rowLe_antisymm_var h12 h21]

/-- C1 witness: the theorem applied to a concrete two-row table and
its transposition. -/
theorem c1_tie_break_order_independent_witness :
    pickedFor [⟨"1999", "V1", "VALUE OF STOCKS", "WLTH", "stocks value"⟩,
        ⟨"1999", "V2", "IMP VALUE STOCKS", "FAM", "stocks value"⟩] "WLTH"
        "stocks value" "1999" =
    pickedFor [⟨"1999", "V2", "IMP VALUE STOCKS", "FAM", "stocks value"⟩,
        ⟨"1999", "V1", "VALUE OF STOCKS", "WLTH", "stocks value"⟩] "WLTH"
        "stocks value" "1999" :=
  c1_tie_break_order_independent
    [⟨"1999", "V1", "VALUE OF STOCKS", "WLTH", "stocks value"⟩,
      ⟨"1999", "V2", "IMP VALUE STOCKS", "FAM", "stocks value"⟩]
    [⟨"1999", "V2", "IMP VALUE STOCKS", "FAM", "stocks value"⟩,
      ⟨"1999", "V1", "VALUE OF STOCKS", "WLTH", "stocks value"⟩]
    (List.Perm.swap (⟨"1999", "V2", "IMP VALUE STOCKS", "FAM", "stocks value"⟩ : GridRow)
      (⟨"1999", "V1", "VALUE OF STOCKS", "WLTH", "stocks value"⟩ : GridRow) []) "WLTH"
    "stocks value" "1999"

/-- C8: for every input label, the normalised concept string produced
by label_to_concept contains no stopword token and no purely numeric
token, including after the synonym-substitution pass and the value-of
contraction. -/
theorem c8_no_stopword_no_numeric_token (label : String) :
    ∀ t ∈ splitWs (strToL (label_to_concept label)),
      STOP_TOKENS.contains t = false ∧ allDigits t = false := by
  intro t ht
  simp only [label_to_concept] at ht
  by_cases hemp : trimWs label.toList = []
  · rw [if_pos hemp] at ht
    exact absurd ht (List.not_mem_nil t)
  · rw [if_neg hemp] at ht
    by_cases hh : isMatchAgeHead (lowerList label.toList) = true
    · rw [if_pos hh] at ht
      have hconc : ∀ u ∈ splitWs (strToL "demographics :: age_head"),
          STOP_TOKENS.contains u = false ∧ allDigits u = false := by decide
      exact hconc t ht
    · rw [if_neg hh] at ht
      by_cases hsp : isMatchAgeSpouse (lowerList label.toList) = true
      · rw [if_pos hsp] at ht
        have hconc : ∀ u ∈ splitWs (strToL "demographics :: age_spouse"),
            STOP_TOKENS.contains u = false ∧ allDigits u = false := by decide
        exact hconc t ht
      · rw [if_neg hsp] at ht
        rw [strToL_mk] at ht
        exact pipeline_tokens_good (normalize_phrase label) t ht

set_option maxHeartbeats 4000000

/-- C8 witness: the theorem applied to a concrete label whose
normalised concept is the token list [value, stocks]. -/
theorem c8_no_stopword_no_numeric_token_witness :
    STOP_TOKENS.contains (strToL "stocks") = false ∧
    allDigits (strToL "stocks") = false :=
  c8_no_stopword_no_numeric_token "VALUE OF STOCKS 1999" (strToL "stocks") (by decide)

/-! Lemmas for the per-canonical back-fill and the aligned column set
(claim C4) and for the zero-usable-files year (claim C3). -/

theorem except_bind_ok {α β : Type} (a : α) (f : α → Except String β) :
    (Except.ok a >>= f : Except String β) = f a := rfl

theorem except_pure {α : Type} (a : α) :
    (pure a : Except String α) = Except.ok a := rfl

theorem processCanonical_empty (task : YearTask) (combined : List (String × Column))
    (nrows : Nat) (st : CanonState) (canonical : String)
    (h : ((alookup canonical task.var_codes_by_canonical).getD []).filter
      (fun code => (combined.map (fun p => p.1)).contains code) = []) :
    ∃ msgs, processCanonical task combined nrows st canonical =
      Except.ok ⟨st.cols ++ [(canonical, List.replicate nrows Val.na)],
        st.messages ++ msgs, st.resolvedTotal, st.unresolvedTotal⟩ := by
  rcases hm : alookup canonical task.canonical_meta with _ | m
  · refine ⟨[], ?_⟩
    simp only [processCanonical]
    rw [h, hm, if_pos rfl]
    simp [except_bind_ok, except_pure, applyDtypeOpt, applyTransformsOpt]
  · obtain ⟨msgs1, hd⟩ := apply_dtype_replicate_na m task.options nrows
    refine ⟨msgs1 ++ (apply_transforms (List.replicate nrows Val.na) m task.options).2, ?_⟩
    simp only [processCanonical]
    rw [h, hm, if_pos rfl]
    simp [except_bind_ok, except_pure, applyDtypeOpt, applyTransformsOpt, hd,
      apply_transforms_replicate_na, List.append_assoc]

theorem alignedFrame_names (canonList : List String) (f : List (String × Column)) :
    (alignedFrame canonList f).map (fun p => p.1) = "year" :: canonList := by
  simp [alignedFrame, Function.comp]
  show List.map (fun c => c) canonList = canonList
  exact List.map_id canonList

theorem alookup_map_self (g : String → Column) (l : List String) (c : String) (hc : c ∈ l) :
    alookup c (l.map (fun x => (x, g x))) = some (g c) := by
  induction l with
  | nil => cases hc
  | cons a as ih =>
      by_cases hac : a = c
      · subst hac
        unfold alookup
        rw [List.map_cons, List.find?_cons_of_pos]
        · rfl
        · simp
      · rcases List.mem_cons.mp hc with h1 | h2
        · exact absurd h1.symm hac
        · unfold alookup
          rw [List.map_cons, List.find?_cons_of_neg]
          · exact ih h2
          · simp [hac]

theorem run_extract_merge_isOk (results : List YearResult)
    (hne : (List.insertionSort (fun a b : YearResult => a.year ≤ b.year) results).filterMap
      (fun r => r.frame) ≠ []) :
    ∃ panel audit, run_extract_merge results = Except.ok (panel, audit) := by
  simp only [run_extract_merge]
  rw [if_neg hne]
  exact ⟨_, _, rfl⟩

theorem run_extract_merge_ok_spec (results : List YearResult) (panel : Panel)
    (audit : List AuditRow)
    (hok : run_extract_merge results = Except.ok (panel, audit)) :
    panel.header = "year" :: sortStrings
      ((((List.insertionSort (fun a b : YearResult => a.year ≤ b.year) results).filterMap
        (fun r => r.frame)).map
          (fun f => (f.map (fun p => p.1)).filter (fun c => c ≠ "year"))).flatten.dedup) ∧
    (∀ r' ∈ results, ∀ f, r'.frame = some f →
      ∀ row ∈ frameRows (alignedFrame panel.header.tail f), row ∈ panel.rows) ∧
    List.Sorted rowYearLe panel.rows := by
  simp only [run_extract_merge] at hok
  by_cases hfe : (List.insertionSort (fun a b : YearResult => a.year ≤ b.year) results).filterMap
      (fun r => r.frame) = []
  · rw [if_pos hfe] at hok
    exact Except.noConfusion hok
  · rw [if_neg hfe] at hok
    injection hok with h
    obtain ⟨h1, h2⟩ := Prod.mk.injEq _ _ _ _ |>.mp h
    subst h1
    refine ⟨rfl, ?_, ?_⟩
    · intro r' hr' f hf row hrow
      have hrs : r' ∈ List.insertionSort (fun a b : YearResult => a.year ≤ b.year) results :=
        (List.perm_insertionSort _ results).mem_iff.mpr hr'
      have hf' : f ∈ (List.insertionSort (fun a b : YearResult => a.year ≤ b.year)
          results).filterMap (fun r => r.frame) :=
        List.mem_filterMap.mpr ⟨r', hrs, hf⟩
      have hrow2 : row ∈ frameRows (alignedFrame (sortStrings
          ((((List.insertionSort (fun a b : YearResult => a.year ≤ b.year) results).filterMap
            (fun r => r.frame)).map
              (fun g => (g.map (fun p => p.1)).filter (fun c => c ≠ "year"))).flatten.dedup)) f) :=
        hrow
      refine (List.perm_insertionSort rowYearLe _).mem_iff.mpr ?_
      exact List.mem_flatten.mpr
        ⟨_, List.mem_map_of_mem frameRows (List.mem_map_of_mem _ hf'), hrow2⟩
    · exact List.sorted_insertionSort rowYearLe _

theorem processFile_unusable (task : YearTask) (st : FileState) (f : SrcFile)
    (ha : st.assigned = [])
    (hf : ∀ code ∈ task.var_code_to_canonical.map (fun p => p.1),
      (f.cols.map (fun p => normHdr p.1)).contains code = false) :
    processFile task st f = Except.ok { st with
      audit_rows := st.audit_rows ++
        [⟨task.year, f.name, 0, (task.all_canonicals.dedup).length, 0, 0⟩] } := by
  have havail : sortStrings ((((task.var_code_to_canonical.map (fun p => p.1)).dedup).filter
      (fun code => ¬ (st.assigned.map (fun p => p.1)).contains code)).filter
      (fun code => (f.cols.map (fun p => normHdr p.1)).contains code)) = [] := by
    have h0 : (((task.var_code_to_canonical.map (fun p => p.1)).dedup).filter
        (fun code => ¬ (st.assigned.map (fun p => p.1)).contains code)).filter
        (fun code => (f.cols.map (fun p => normHdr p.1)).contains code) = [] := by
      rw [List.filter_eq_nil_iff]
      intro a hamem
      have h1 : a ∈ (task.var_code_to_canonical.map (fun p => p.1)).dedup :=
        List.mem_of_mem_filter hamem
      have hmap : a ∈ task.var_code_to_canonical.map (fun p => p.1) :=
        List.mem_dedup.mp h1
      simpa using hf a hmap
    rw [h0]
    rfl
  have hdup : sortStrings (((f.cols.map (fun p => normHdr p.1)).dedup).filter
      (fun code => (st.assigned.map (fun p => p.1)).contains code)) = [] := by
    rw [ha]
    have h0 : ((f.cols.map (fun p => normHdr p.1)).dedup).filter
        (fun code => (([] : List (String × String)).map (fun p => p.1)).contains code) = [] := by
      rw [List.filter_eq_nil_iff]
      intro a _
      simp
    rw [h0]
    rfl
  simp only [processFile]
  rw [havail, hdup]
  simp

theorem foldlM_processFile_unusable (task : YearTask) (files : List SrcFile) :
    ∀ st : FileState, st.assigned = [] →
    (∀ f ∈ files, ∀ code ∈ task.var_code_to_canonical.map (fun p => p.1),
      (f.cols.map (fun p => normHdr p.1)).contains code = false) →
    files.foldlM (processFile task) st = Except.ok { st with
      audit_rows := st.audit_rows ++ files.map (fun f =>
        ⟨task.year, f.name, 0, (task.all_canonicals.dedup).length, 0, 0⟩) } := by
  induction files with
  | nil =>
      intro st _ _
      simp only [List.foldlM]
      rw [List.map_nil, List.append_nil]
      rfl
  | cons f fs ih =>
      intro st ha hall
      rw [List.foldlM_cons]
      rw [processFile_unusable task st f ha (hall f (List.mem_cons_self f fs))]
      rw [except_bind_ok]
      rw [ih { st with audit_rows := st.audit_rows ++
          [⟨task.year, f.name, 0, (task.all_canonicals.dedup).length, 0, 0⟩] } ha
        (fun g hg => hall g (List.mem_cons_of_mem f hg))]
      simp [List.append_assoc]

theorem process_year_unusable (task : YearTask) (hne : task.files ≠ [])
    (hall : ∀ f ∈ task.files, ∀ code ∈ task.var_code_to_canonical.map (fun p => p.1),
      (f.cols.map (fun p => normHdr p.1)).contains code = false) :
    process_year task = Except.ok ⟨task.year, none,
      [("ERROR", "No usable files for year " ++ toString task.year)],
      task.files.map (fun f =>
        ⟨task.year, f.name, 0, (task.all_canonicals.dedup).length, 0, 0⟩)⟩ := by
  simp only [process_year]
  rw [if_neg hne]
  rw [foldlM_processFile_unusable task task.files ⟨[], [], [], []⟩ rfl hall]
  rw [except_bind_ok]
  rw [if_pos rfl]
  rfl

/-- C3: a year whose task lists files but whose files contain none of
the mapped variable codes yields a YearResult with no frame, exactly
one ERROR message and one audit row per file, and the run is not
aborted by it: whenever any other result carries a frame the merge
phase succeeds, every frame's aligned rows appear in the final panel,
and the panel rows are sorted ascending by year. -/
theorem c3_zero_usable_year (task : YearTask) (hfiles : task.files ≠ [])
    (hunusable : ∀ f ∈ task.files, ∀ code ∈ task.var_code_to_canonical.map (fun p => p.1),
      (f.cols.map (fun p => normHdr p.1)).contains code = false) :
    ∃ r, process_year task = Except.ok r ∧ r.frame = none ∧
      (r.messages.filter (fun m => m.1 = "ERROR")).length = 1 ∧
      r.audit_rows.length = task.files.length ∧
      (∀ results, r ∈ results → (∃ r' ∈ results, r'.frame ≠ none) →
        ∃ panel audit, run_extract_merge results = Except.ok (panel, audit) ∧
          (∀ r' ∈ results, ∀ f, r'.frame = some f →
            ∀ row ∈ frameRows (alignedFrame panel.header.tail f), row ∈ panel.rows) ∧
          List.Sorted rowYearLe panel.rows) := by
  refine ⟨_, process_year_unusable task hfiles hunusable, rfl, ?_, ?_, ?_⟩
  · simp
  · simp
  · intro results hrmem hex
    obtain ⟨r', hr', hfr⟩ := hex
    rcases ho : r'.frame with _ | f0
    · exact absurd ho hfr
    · have hmemS : r' ∈ List.insertionSort (fun a b : YearResult => a.year ≤ b.year) results :=
        (List.perm_insertionSort _ results).mem_iff.mpr hr'
      have hf0 : f0 ∈ (List.insertionSort (fun a b : YearResult => a.year ≤ b.year)
          results).filterMap (fun r => r.frame) :=
        List.mem_filterMap.mpr ⟨r', hmemS, ho⟩
      obtain ⟨panel, audit, hok⟩ := run_extract_merge_isOk results (List.ne_nil_of_mem hf0)
      obtain ⟨_, hmem, hsort⟩ := run_extract_merge_ok_spec results panel audit hok
      exact ⟨panel, audit, hok, hmem, hsort⟩

/-- C3 witness: a concrete 2001 task whose only file shares no column
with the mapped variable code V1. -/
theorem c3_zero_usable_year_witness :
    ∃ r, process_year ⟨2001, [⟨"FAM2001.csv", [("OTHER", [Val.num 1])]⟩],
        [("inc", ["V1"])], [("V1", "inc")], ["inc"],
        [("inc", ⟨"inc", none, ⟨[], none⟩, none, none, none⟩)],
        ⟨true, true, none, false, false⟩⟩ = Except.ok r ∧ r.frame = none ∧
      (r.messages.filter (fun m => m.1 = "ERROR")).length = 1 ∧
      r.audit_rows.length = 1 ∧
      (∀ results, r ∈ results → (∃ r' ∈ results, r'.frame ≠ none) →
        ∃ panel audit, run_extract_merge results = Except.ok (panel, audit) ∧
          (∀ r' ∈ results, ∀ f, r'.frame = some f →
            ∀ row ∈ frameRows (alignedFrame panel.header.tail f), row ∈ panel.rows) ∧
          List.Sorted rowYearLe panel.rows) :=
  c3_zero_usable_year _ (by decide) (by decide)

/-- C4: a canonical with no available source column in a year's
combined frame is emitted by the worker as an all-missing column under
that canonical's name rather than omitted, and after a successful
merge every aligned per-year frame carries exactly the panel's column
set (year followed by the canonical inventory), canonicals absent from
a year's frame being back-filled with an all-missing column. -/
theorem c4_missing_canonical_backfilled (task : YearTask)
    (combined : List (String × Column)) (nrows : Nat) (st : CanonState) (canonical : String)
    (h : ((alookup canonical task.var_codes_by_canonical).getD []).filter
      (fun code => (combined.map (fun p => p.1)).contains code) = []) :
    (∃ msgs, processCanonical task combined nrows st canonical =
      Except.ok ⟨st.cols ++ [(canonical, List.replicate nrows Val.na)],
        st.messages ++ msgs, st.resolvedTotal, st.unresolvedTotal⟩) ∧
    (∀ results panel audit, run_extract_merge results = Except.ok (panel, audit) →
      ∀ f ∈ (List.insertionSort (fun a b : YearResult => a.year ≤ b.year) results).filterMap
        (fun r => r.frame),
        (alignedFrame panel.header.tail f).map (fun p => p.1) = panel.header ∧
        (∀ c ∈ panel.header.tail, alookup c f = none →
          alookup c (alignedFrame panel.header.tail f) =
            some (List.replicate (frameNRows f) Val.na))) := by
  constructor
  · exact processCanonical_empty task combined nrows st canonical h
  · intro results panel audit hok f hf
    obtain ⟨hhdr, _, _⟩ := run_extract_merge_ok_spec results panel audit hok
    constructor
    · rw [alignedFrame_names, hhdr]
      rfl
    · intro c hc hnone
      rw [show alignedFrame panel.header.tail f = ("year" :: panel.header.tail).map
        (fun x => (x, (alookup x f).getD (List.replicate (frameNRows f) Val.na))) from rfl]
      rw [alookup_map_self]
      · rw [hnone]
        rfl
      · exact List.mem_cons_of_mem _ hc

/-- C4 witness: the theorem applied to a combined frame offering only
an unrelated column, so the canonical inc receives one all-missing
cell. -/
theorem c4_missing_canonical_backfilled_witness :
    (∃ msgs, processCanonical ⟨2001, [⟨"FAM2001.csv", [("OTHER", [Val.num 1])]⟩],
        [("inc", ["V1"])], [("V1", "inc")], ["inc"],
        [("inc", ⟨"inc", none, ⟨[], none⟩, none, none, none⟩)],
        ⟨true, true, none, false, false⟩⟩ [("OTHER", [Val.num 1])] 1 ⟨[], [], 0, 0⟩ "inc" =
      Except.ok ⟨[("inc", [Val.na])], msgs, 0, 0⟩) ∧
    (∀ results panel audit, run_extract_merge results = Except.ok (panel, audit) →
      ∀ f ∈ (List.insertionSort (fun a b : YearResult => a.year ≤ b.year) results).filterMap
        (fun r => r.frame),
        (alignedFrame panel.header.tail f).map (fun p => p.1) = panel.header ∧
        (∀ c ∈ panel.header.tail, alookup c f = none →
          alookup c (alignedFrame panel.header.tail f) =
            some (List.replicate (frameNRows f) Val.na))) :=
  c4_missing_canonical_backfilled _ _ 1 _ "inc" (by decide)

end PSID
